import Mathlib

/-!
Shallow embedding of the Underchex engine core (`src/rust/src` of the
repository) in Lean 4, together with theorems settling the claims
C1..C10 about it.

Modelling conventions (applied uniformly; noted again at use sites):

* Rust `i32` coordinates and scores are modelled as `Int`.  All arithmetic
  performed by the engine stays far below the `i32` bounds (coordinates are
  bounded by the board radius 4, scores by `CHECKMATE_VALUE = 100000`), so
  wrap-around semantics are never exercised and plain integers are faithful.
* The Rust `BoardState = HashMap<String, Piece>` keys cells by the string
  `"q,r"`.  `HexCoord::to_key`/`from_key` form a bijection between
  coordinates and the keys actually stored, so the map is modelled as an
  association list `List (HexCoord × Piece)`; `insert` and `remove` replace
  or drop the binding for the key.  A `HashMap` has no observable iteration
  order; the list order of the model realises one admissible order.
* Rust's `HashMap` iteration in `find_king` parses each key back with
  `HexCoord::from_key`, which always succeeds on keys produced by
  `to_key`; the model therefore iterates the pairs directly.
* `get_ray` walks a direction until it steps off the board.  A straight
  line meets the radius-4 board in at most 9 cells, so the walk performs at
  most 9 iterations from any start; the model gives the walk fuel 100,
  which is never exhausted.
* Position fingerprints (`TranspositionTable::generate_hash`, tablebase
  keys) are sorted strings listing every occupied cell with its piece.
  Two boards produce the same fingerprint exactly when they agree, as
  maps, on all cells.  The model's `canon_board` (the board read back in
  the fixed order of `get_all_cells`) is a canonical form with exactly the
  same equality classes for boards whose pieces are on valid cells, which
  holds for every board the engine constructs.
* `sort_by`/`sort_by_key` (Rust stable sorts) are modelled by a stable
  insertion sort, `sortBy`.
-/

-- ============================================================================
-- Association list primitives (model of HashMap operations)
-- ============================================================================

/-- Lookup in an association list: value of the first binding of key `k`. -/
def alLookup [DecidableEq κ] (l : List (κ × ν)) (k : κ) : Option ν :=
  (l.find? (fun e => e.1 = k)).map (fun e => e.2)

/-- Model of `HashMap::remove`: drop the binding of key `k`. -/
def alErase [DecidableEq κ] (l : List (κ × ν)) (k : κ) : List (κ × ν) :=
  l.filter (fun e => ¬ e.1 = k)

/-- Model of `HashMap::insert`: bind `k` to `v`, replacing any old binding. -/
def alInsert [DecidableEq κ] (l : List (κ × ν)) (k : κ) (v : ν) : List (κ × ν) :=
  (k, v) :: alErase l k

/-- Keys of an association list. -/
def alKeys (l : List (κ × ν)) : List κ :=
  l.map (fun e => e.1)

/-- Stable insertion of `x` into `l`: `x` goes after every `y` with `le y x`. -/
def insertSorted (le : α → α → Bool) (x : α) : List α → List α
  | [] => [x]
  | y :: ys => if le y x then y :: insertSorted le x ys else x :: y :: ys

/-- Stable sort (model of Rust's stable `sort_by` / `sort_by_key`). -/
def sortBy (le : α → α → Bool) (l : List α) : List α :=
  l.foldl (fun acc x => insertSorted le x acc) []

-- ============================================================================
-- types.rs: coordinates, directions, pieces
-- ============================================================================

/-- Axial coordinates for the hex grid (Rust `HexCoord`). -/
structure HexCoord where
  q : Int
  r : Int
deriving DecidableEq

/-- Implicit third coordinate `s = -q - r`. -/
def HexCoord.s (c : HexCoord) : Int := -c.q - c.r

/-- Six cardinal directions on the hex grid. -/
inductive Direction where
  | N | S | NE | SW | NW | SE
deriving DecidableEq

/-- Direction deltas, exactly the table in `Direction::delta`. -/
def Direction.delta : Direction → Int × Int
  | .N => (0, -1)
  | .S => (0, 1)
  | .NE => (1, -1)
  | .SW => (-1, 1)
  | .NW => (-1, 0)
  | .SE => (1, 0)

/-- Opposite direction (`Direction::opposite`). -/
def Direction.opposite : Direction → Direction
  | .N => .S
  | .S => .N
  | .NE => .SW
  | .SW => .NE
  | .NW => .SE
  | .SE => .NW

/-- All six directions, in the order of `Direction::all`. -/
def Direction.all : List Direction :=
  [.N, .S, .NE, .SW, .NW, .SE]

/-- Diagonal directions (used by the Chariot). -/
def Direction.diagonals : List Direction :=
  [.NE, .NW, .SE, .SW]

/-- Lance A directions. -/
def Direction.lance_a : List Direction :=
  [.N, .S, .NW, .SE]

/-- Lance B directions. -/
def Direction.lance_b : List Direction :=
  [.N, .S, .NE, .SW]

inductive PieceType where
  | Pawn | King | Queen | Knight | Lance | Chariot
deriving DecidableEq

inductive Color where
  | White | Black
deriving DecidableEq

def Color.opposite : Color → Color
  | .White => .Black
  | .Black => .White

inductive LanceVariant where
  | A | B
deriving DecidableEq

/-- A piece (Rust `Piece`): type, color, and an optional lance variant. -/
structure Piece where
  piece_type : PieceType
  color : Color
  variant : Option LanceVariant
deriving DecidableEq

/-- Rust `Piece::new`: note that it sets `variant` to `None` for every
piece type, including `Lance`. -/
def Piece.new (piece_type : PieceType) (color : Color) : Piece :=
  ⟨piece_type, color, none⟩

/-- Rust `Piece::lance`. -/
def Piece.lance (color : Color) (variant : LanceVariant) : Piece :=
  ⟨PieceType.Lance, color, some variant⟩

/-- Rust `Piece::directions`: the direction table of the piece's movement
class.  King and Queen map to all six directions; a Lance with a missing
variant behaves as variant B. -/
def Piece.directions (p : Piece) : List Direction :=
  match p.piece_type with
  | .King | .Queen => Direction.all
  | .Chariot => Direction.diagonals
  | .Lance =>
    match p.variant with
    | some .A => Direction.lance_a
    | _ => Direction.lance_b
  | _ => []

/-- Rust `Piece::is_slider`. -/
def Piece.is_slider (p : Piece) : Bool :=
  match p.piece_type with
  | .Queen | .Lance | .Chariot => true
  | _ => false

def BOARD_RADIUS : Int := 4

/-- Rust `is_promotion_zone`: row `r = -4` for White, `r = 4` for Black. -/
def is_promotion_zone (coord : HexCoord) (color : Color) : Bool :=
  match color with
  | .White => coord.r = -BOARD_RADIUS
  | .Black => coord.r = BOARD_RADIUS

/-- Board state: model of `HashMap<String, Piece>` keyed by `"q,r"`. -/
abbrev Board := List (HexCoord × Piece)

/-- A move (Rust `Move`).  The Rust fields `from`/`to` are Lean keywords
and are rendered `from_sq`/`to_sq`. -/
structure Move where
  from_sq : HexCoord
  to_sq : HexCoord
  piece : Piece
  captured : Option Piece
  promotion : Option PieceType
deriving DecidableEq

/-- Rust `Move::new`. -/
def Move.new (piece : Piece) (from_sq to_sq : HexCoord) : Move :=
  ⟨from_sq, to_sq, piece, none, none⟩

/-- Rust `Move::with_capture`. -/
def Move.with_capture (m : Move) (captured : Piece) : Move :=
  { m with captured := some captured }

/-- Rust `Move::with_promotion`. -/
def Move.with_promotion (m : Move) (promotion : PieceType) : Move :=
  { m with promotion := some promotion }

/-- Valid promotion targets for pawns (`PROMOTION_TARGETS`). -/
def PROMOTION_TARGETS : List PieceType :=
  [.Queen, .Chariot, .Lance, .Knight]

inductive GameStatus where
  | Ongoing
  | Checkmate (winner : Color)
  | Stalemate
  | Draw (reason : String)
  | Resigned (winner : Color)
deriving DecidableEq

structure GameState where
  board : Board
  turn : Color
  move_number : Nat
  half_move_clock : Nat
  history : List Move
  status : GameStatus
deriving DecidableEq

-- ============================================================================
-- board.rs: geometry
-- ============================================================================

/-- Rust `is_valid_cell`: `max (|q|, |r|, |q+r|) ≤ 4`. -/
def is_valid_cell (coord : HexCoord) : Bool :=
  max (max coord.q.natAbs coord.r.natAbs) coord.s.natAbs ≤ 4

/-- The values `-4 ..= 4` iterated by the coordinate loops of
`get_all_cells`. -/
def coordSpan : List Int :=
  [-4, -3, -2, -1, 0, 1, 2, 3, 4]

/-- Rust `get_all_cells`: all valid cells, `q`-major then `r`. -/
def get_all_cells : List HexCoord :=
  coordSpan.flatMap (fun q =>
    (coordSpan.filterMap (fun r =>
      if is_valid_cell ⟨q, r⟩ then some (⟨q, r⟩ : HexCoord) else none)))

/-- Rust `add_direction`. -/
def add_direction (coord : HexCoord) (d : Direction) : HexCoord :=
  ⟨coord.q + d.delta.1, coord.r + d.delta.2⟩

/-- Rust `get_neighbor`: step once, `none` when off the board. -/
def get_neighbor (coord : HexCoord) (d : Direction) : Option HexCoord :=
  let n := add_direction coord d
  if is_valid_cell n then some n else none

/-- Rust `hex_distance`. -/
def hex_distance (a b : HexCoord) : Nat :=
  max (max (a.q - b.q).natAbs (a.r - b.r).natAbs) (a.s - b.s).natAbs

/-- Fueled body of `get_ray`; the fuel (100) is never exhausted because a
line meets the board in at most 9 cells (see module comment). -/
def get_ray_aux (b : Direction) (cur : HexCoord) : Nat → List HexCoord
  | 0 => []
  | fuel + 1 =>
    let nxt := add_direction cur b
    if is_valid_cell nxt then nxt :: get_ray_aux b nxt fuel else []

/-- Rust `get_ray`: cells along a direction, start excluded, stopping at
the first off-board step. -/
def get_ray (start : HexCoord) (d : Direction) : List HexCoord :=
  get_ray_aux d start 100

/-- Knight leap offsets (`KNIGHT_OFFSETS`). -/
def KNIGHT_OFFSETS : List (Int × Int) :=
  [(1, -2), (-1, -1), (2, -1), (1, 1), (-1, 2), (-2, 1)]

/-- Rust `get_knight_targets`. -/
def get_knight_targets (c : HexCoord) : List HexCoord :=
  (KNIGHT_OFFSETS.map (fun o => (⟨c.q + o.1, c.r + o.2⟩ : HexCoord))).filter
    (fun t => is_valid_cell t)

-- ============================================================================
-- moves.rs: move generation, check detection, application, validation
-- ============================================================================

/-- Rust `get_forward_direction`. -/
def get_forward_direction : Color → Direction
  | .White => .N
  | .Black => .S

/-- Rust `get_pawn_capture_directions`. -/
def get_pawn_capture_directions : Color → List Direction
  | .White => [.N, .NE, .NW]
  | .Black => [.S, .SE, .SW]

/-- Rust `get_piece_at`. -/
def get_piece_at (board : Board) (coord : HexCoord) : Option Piece :=
  alLookup board coord

/-- Rust `is_occupied`. -/
def is_occupied (board : Board) (coord : HexCoord) : Bool :=
  (get_piece_at board coord).isSome

/-- Rust `has_enemy`. -/
def has_enemy (board : Board) (coord : HexCoord) (color : Color) : Bool :=
  match get_piece_at board coord with
  | some p => p.color ≠ color
  | none => false

/-- Rust `has_friendly`. -/
def has_friendly (board : Board) (coord : HexCoord) (color : Color) : Bool :=
  match get_piece_at board coord with
  | some p => p.color = color
  | none => false

/-- Pawn move list (`generate_pawn_moves`): forward step (with the four
promotion moves when the destination is the promotion zone), then the
captures in the three capture directions. -/
def generate_pawn_moves (board : Board) (piece : Piece) (from_sq : HexCoord) : List Move :=
  let fwd :=
    match get_neighbor from_sq (get_forward_direction piece.color) with
    | some f =>
      if is_occupied board f then []
      else if is_promotion_zone f piece.color then
        PROMOTION_TARGETS.map (fun t => (Move.new piece from_sq f).with_promotion t)
      else [Move.new piece from_sq f]
    | none => []
  let caps :=
    (get_pawn_capture_directions piece.color).flatMap (fun d =>
      match get_neighbor from_sq d with
      | some target =>
        match get_piece_at board target with
        | some victim =>
          if victim.color ≠ piece.color then
            if is_promotion_zone target piece.color then
              PROMOTION_TARGETS.map (fun t =>
                ((Move.new piece from_sq target).with_capture victim).with_promotion t)
            else [(Move.new piece from_sq target).with_capture victim]
          else []
        | none => []
      | none => [])
  fwd ++ caps

/-- A step move with the capture field set from the destination's content,
as the king and knight generators build it. -/
def step_move (board : Board) (piece : Piece) (from_sq target : HexCoord) : Move :=
  match get_piece_at board target with
  | some captured => (Move.new piece from_sq target).with_capture captured
  | none => Move.new piece from_sq target

/-- Rust `generate_king_moves`. -/
def generate_king_moves (board : Board) (piece : Piece) (from_sq : HexCoord) : List Move :=
  Direction.all.flatMap (fun d =>
    match get_neighbor from_sq d with
    | some target =>
      if has_friendly board target piece.color then []
      else [step_move board piece from_sq target]
    | none => [])

/-- Rust `generate_knight_moves`. -/
def generate_knight_moves (board : Board) (piece : Piece) (from_sq : HexCoord) : List Move :=
  (get_knight_targets from_sq).flatMap (fun target =>
    if has_friendly board target piece.color then []
    else [step_move board piece from_sq target])

/-- Walk one ray for a slider: stop before a friendly piece, include an
enemy as a capture and stop, include empty cells and continue. -/
def slider_walk (board : Board) (piece : Piece) (from_sq : HexCoord) : List HexCoord → List Move
  | [] => []
  | target :: rest =>
    match get_piece_at board target with
    | some other =>
      if other.color = piece.color then []
      else [(Move.new piece from_sq target).with_capture other]
    | none => Move.new piece from_sq target :: slider_walk board piece from_sq rest

/-- Rust `generate_slider_moves`. -/
def generate_slider_moves (board : Board) (piece : Piece) (from_sq : HexCoord) : List Move :=
  piece.directions.flatMap (fun d => slider_walk board piece from_sq (get_ray from_sq d))

/-- Rust `generate_pseudo_legal_moves`. -/
def generate_pseudo_legal_moves (board : Board) (piece : Piece) (from_sq : HexCoord) : List Move :=
  match piece.piece_type with
  | .Pawn => generate_pawn_moves board piece from_sq
  | .King => generate_king_moves board piece from_sq
  | .Knight => generate_knight_moves board piece from_sq
  | .Queen | .Lance | .Chariot => generate_slider_moves board piece from_sq

/-- Rust `find_king`: the first king of the color in iteration order. -/
def find_king (board : Board) (color : Color) : Option HexCoord :=
  (board.find? (fun e => e.2.piece_type = PieceType.King ∧ e.2.color = color)).map
    (fun e => e.1)

/-- Pawn-attack scan of `is_attacked`. -/
def pawn_attack_scan (board : Board) (target : HexCoord) (by_color : Color) : Bool :=
  (get_pawn_capture_directions by_color).any (fun d =>
    match get_neighbor target d.opposite with
    | some attacker =>
      match get_piece_at board attacker with
      | some p => p.piece_type = PieceType.Pawn ∧ p.color = by_color
      | none => false
    | none => false)

/-- King-attack scan of `is_attacked`. -/
def king_attack_scan (board : Board) (target : HexCoord) (by_color : Color) : Bool :=
  Direction.all.any (fun d =>
    match get_neighbor target d with
    | some attacker =>
      match get_piece_at board attacker with
      | some p => p.piece_type = PieceType.King ∧ p.color = by_color
      | none => false
    | none => false)

/-- Knight-attack scan of `is_attacked`. -/
def knight_attack_scan (board : Board) (target : HexCoord) (by_color : Color) : Bool :=
  (get_knight_targets target).any (fun pos =>
    match get_piece_at board pos with
    | some p => p.piece_type = PieceType.Knight ∧ p.color = by_color
    | none => false)

/-- Slider scan along one ray: the first piece hit blocks; it attacks when
it is of `by_color` and a slider whose direction set contains the reverse
ray direction. -/
def scan_ray_attack (board : Board) (by_color : Color) (rev : Direction) : List HexCoord → Bool
  | [] => false
  | pos :: rest =>
    match get_piece_at board pos with
    | some p =>
      if p.color ≠ by_color then false
      else p.is_slider && p.directions.contains rev
    | none => scan_ray_attack board by_color rev rest

/-- Slider-attack scan of `is_attacked`. -/
def slider_attack_scan (board : Board) (target : HexCoord) (by_color : Color) : Bool :=
  Direction.all.any (fun d =>
    scan_ray_attack board by_color d.opposite (get_ray target d))

/-- Rust `is_attacked`: pawn, king, knight, then slider scans. -/
def is_attacked (board : Board) (target : HexCoord) (by_color : Color) : Bool :=
  pawn_attack_scan board target by_color ||
  king_attack_scan board target by_color ||
  knight_attack_scan board target by_color ||
  slider_attack_scan board target by_color

/-- Rust `is_in_check`: the king of `color` exists and its square is
attacked by the opposite color; `false` when there is no king. -/
def is_in_check (board : Board) (color : Color) : Bool :=
  match find_king board color with
  | some king_pos => is_attacked board king_pos color.opposite
  | none => false

/-- Rust `apply_move`: remove the piece at `from`, insert at `to` the
promoted piece when `promotion` is set, else the moving piece. -/
def apply_move (board : Board) (mv : Move) : Board :=
  let piece_to_place :=
    match mv.promotion with
    | some promo_type => Piece.new promo_type mv.piece.color
    | none => mv.piece
  alInsert (alErase board mv.from_sq) mv.to_sq piece_to_place

/-- Rust `generate_legal_moves`: pseudo-legal moves whose application does
not leave the mover's king in check. -/
def generate_legal_moves (board : Board) (piece : Piece) (from_sq : HexCoord) : List Move :=
  (generate_pseudo_legal_moves board piece from_sq).filter
    (fun mv => ¬ is_in_check (apply_move board mv) piece.color)

/-- Rust `generate_all_legal_moves`: legal moves of every piece of the
color, in board iteration order. -/
def generate_all_legal_moves (board : Board) (color : Color) : List Move :=
  board.flatMap (fun e =>
    if e.2.color = color then generate_legal_moves board e.2 e.1 else [])

structure MoveValidation where
  legal : Bool
  reason : Option String
  capture : Bool
deriving DecidableEq

/-- Rust `validate_move` with its five stable reason tokens. -/
def validate_move (board : Board) (from_sq to_sq : HexCoord) (turn : Color) : MoveValidation :=
  match get_piece_at board from_sq with
  | none => ⟨false, some "noPieceAtSource", false⟩
  | some piece =>
    if piece.color ≠ turn then ⟨false, some "notYourPiece", false⟩
    else if ¬ is_valid_cell to_sq then ⟨false, some "invalidDestination", false⟩
    else
      match (generate_legal_moves board piece from_sq).find? (fun m => m.to_sq = to_sq) with
      | some matching_move => ⟨true, none, matching_move.captured.isSome⟩
      | none =>
        if (generate_pseudo_legal_moves board piece from_sq).any (fun m => m.to_sq = to_sq) then
          ⟨false, some "movesIntoCheck", false⟩
        else ⟨false, some "illegalMove", false⟩

-- ============================================================================
-- game.rs: status computation and make_move
-- ============================================================================

/-- Rust `determine_status`. -/
def determine_status (board : Board) (next_turn : Color) : GameStatus :=
  if (generate_all_legal_moves board next_turn).isEmpty then
    if is_in_check board next_turn then GameStatus.Checkmate next_turn.opposite
    else GameStatus.Stalemate
  else GameStatus.Ongoing

/-- Rust `make_move`: reject unless the game is ongoing and the move
validates; otherwise apply the move (with `promotion: None`, per the
source's TODO) and flip the turn. -/
def make_move (state : GameState) (from_sq to_sq : HexCoord) : Option GameState :=
  if state.status ≠ GameStatus.Ongoing then none
  else if ¬ (validate_move state.board from_sq to_sq state.turn).legal then none
  else
    match get_piece_at state.board from_sq with
    | none => none
    | some piece =>
      let captured := get_piece_at state.board to_sq
      let mv : Move := ⟨from_sq, to_sq, piece, captured, none⟩
      let new_board := apply_move state.board mv
      let next_turn := state.turn.opposite
      let status := determine_status new_board next_turn
      let half_move_clock :=
        if piece.piece_type = PieceType.Pawn ∨ captured.isSome then 0
        else state.half_move_clock + 1
      let move_number :=
        if state.turn = Color.Black then state.move_number + 1 else state.move_number
      some ⟨new_board, next_turn, move_number, half_move_clock,
            state.history ++ [mv], status⟩

-- ============================================================================
-- ai.rs: evaluation
-- ============================================================================

/-- Rust `get_piece_value` (centipawns). -/
def get_piece_value : PieceType → Int
  | .Pawn => 100
  | .Knight => 300
  | .Lance => 450
  | .Chariot => 450
  | .Queen => 900
  | .King => 0

def CHECKMATE_VALUE : Int := 100000

def STALEMATE_VALUE : Int := 0

/-- Rust `get_centrality_bonus`. -/
def get_centrality_bonus (coord : HexCoord) : Int :=
  (BOARD_RADIUS - (hex_distance coord ⟨0, 0⟩ : Int)) * 5

/-- Rust `get_pawn_advancement_bonus`.  The source computes
`((|r - start_r| / 8)^2 * 50) as i32` in `f64`; for `|r - start_r| ≤ 8`
every intermediate value is an exact binary fraction and the truncating
cast equals the integer division below. -/
def get_pawn_advancement_bonus (coord : HexCoord) (color : Color) : Int :=
  let start_r : Int := if color = Color.White then BOARD_RADIUS else -BOARD_RADIUS
  let k := (coord.r - start_r).natAbs
  ((50 * k * k) / 64 : Nat)

/-- Rust `get_piece_position_bonus`. -/
def get_piece_position_bonus (piece : Piece) (coord : HexCoord) : Int :=
  let bonus := get_centrality_bonus coord
  if piece.piece_type = PieceType.Pawn then
    bonus + get_pawn_advancement_bonus coord piece.color
  else bonus

/-- Rust `evaluate_material` (the key parse always succeeds, see module
comment). -/
def evaluate_material (board : Board) : Int :=
  board.foldl (fun score e =>
    let total := get_piece_value e.2.piece_type + get_piece_position_bonus e.2 e.1
    if e.2.color = Color.White then score + total else score - total) 0

/-- Rust `evaluate_mobility`. -/
def evaluate_mobility (board : Board) (color : Color) : Int :=
  ((generate_all_legal_moves board color).length * 2 : Nat)

/-- Rust `evaluate_position`. -/
def evaluate_position (board : Board) : Int :=
  let score := evaluate_material board
  let score := score + (evaluate_mobility board Color.White - evaluate_mobility board Color.Black)
  let score := if is_in_check board Color.White then score - 50 else score
  if is_in_check board Color.Black then score + 50 else score

-- ============================================================================
-- ai.rs: transposition table
-- ============================================================================

inductive TTEntryType where
  | Exact | Lower | Upper
deriving DecidableEq

structure TTEntry where
  score : Int
  depth : Int
  entry_type : TTEntryType
  best_move : Option Move
deriving DecidableEq

/-- Canonical form of a board: its bindings read back in the fixed order
of `get_all_cells`.  Models the sorted fingerprint string of
`TranspositionTable::generate_hash`: two boards whose pieces are on valid
cells have equal canonical forms exactly when they have equal
fingerprints (both are determined by, and determine, the cell → piece
map). -/
def canon_board (board : Board) : Board :=
  get_all_cells.filterMap (fun c => (get_piece_at board c).map (fun p => (c, p)))

structure TranspositionTable where
  table : List (Board × TTEntry)
  max_size : Nat

/-- Rust `TranspositionTable::generate_hash` (see `canon_board`). -/
def TranspositionTable.generate_hash (board : Board) : Board :=
  canon_board board

/-- Rust `TranspositionTable::store`: evict the first half of the entries
when full (the `HashMap` yields them in unspecified order; the model uses
list order), then insert unless an entry of strictly greater depth is
already present. -/
def TranspositionTable.store (tt : TranspositionTable) (board : Board) (depth score : Int)
    (entry_type : TTEntryType) (best_move : Option Move) : TranspositionTable :=
  let table :=
    if tt.table.length ≥ tt.max_size then tt.table.drop (tt.max_size / 2) else tt.table
  let hash := TranspositionTable.generate_hash board
  match alLookup table hash with
  | none => ⟨alInsert table hash ⟨score, depth, entry_type, best_move⟩, tt.max_size⟩
  | some existing =>
    if existing.depth ≤ depth then
      ⟨alInsert table hash ⟨score, depth, entry_type, best_move⟩, tt.max_size⟩
    else ⟨table, tt.max_size⟩

/-- Rust `TranspositionTable::probe`. -/
def TranspositionTable.probe (tt : TranspositionTable) (board : Board) : Option TTEntry :=
  alLookup tt.table (TranspositionTable.generate_hash board)

/-- Rust `TranspositionTable::clear`. -/
def TranspositionTable.clear (tt : TranspositionTable) : TranspositionTable :=
  ⟨[], tt.max_size⟩

-- ============================================================================
-- ai.rs: move ordering, quiescence, alpha-beta
-- ============================================================================

/-- Rust `estimate_move_value`. -/
def estimate_move_value (mv : Move) : Int :=
  let score : Int := 0
  let score :=
    match mv.captured with
    | some captured =>
      score + 10000 + get_piece_value captured.piece_type * 10 - get_piece_value mv.piece.piece_type
    | none => score
  let score :=
    match mv.promotion with
    | some promotion => score + 9000 + get_piece_value promotion - get_piece_value PieceType.Pawn
    | none => score
  score + get_centrality_bonus mv.to_sq

/-- Rust `order_moves`: stable sort, best estimate first. -/
def order_moves (moves : List Move) : List Move :=
  sortBy (fun a b => estimate_move_value b ≤ estimate_move_value a) moves

/-- Rust `is_tactical_move`. -/
def is_tactical_move (mv : Move) : Bool :=
  mv.captured.isSome || mv.promotion.isSome

/-- Rust `generate_tactical_moves`. -/
def generate_tactical_moves (board : Board) (color : Color) : List Move :=
  (generate_all_legal_moves board color).filter is_tactical_move

/-- Maximizing loop of `quiescence_search` (`alpha` threaded, early return
of `beta` on a fail-high). -/
def q_loop_max (f : Board → Int → Int → Int) (board : Board) (beta : Int) :
    List Move → Int → Int
  | [], alpha => alpha
  | mv :: rest, alpha =>
    let score := f (apply_move board mv) alpha beta
    if score ≥ beta then beta
    else q_loop_max f board beta rest (max alpha score)

/-- Minimizing loop of `quiescence_search`. -/
def q_loop_min (f : Board → Int → Int → Int) (board : Board) (alpha : Int) :
    List Move → Int → Int
  | [], beta => beta
  | mv :: rest, beta =>
    let score := f (apply_move board mv) alpha beta
    if score ≤ alpha then alpha
    else q_loop_min f board alpha rest (min beta score)

/-- Rust `quiescence_search`.  The fuel argument is
`MAX_QUIESCENCE_DEPTH - q_depth` (entry fuel 8 for `q_depth = 0`); fuel 0
is exactly the source's `q_depth >= 8` early return.  The `stats`
parameter only counts nodes and is omitted. -/
def quiescence_search : Nat → Board → Int → Int → Bool → Int
  | 0, board, alpha, beta, maximizing =>
    let stand_pat := evaluate_position board
    if maximizing then
      if stand_pat ≥ beta then beta else stand_pat
    else
      if stand_pat ≤ alpha then alpha else stand_pat
  | fuel + 1, board, alpha, beta, maximizing =>
    let stand_pat := evaluate_position board
    if maximizing then
      if stand_pat ≥ beta then beta
      else
        let alpha := max alpha stand_pat
        let tactical := generate_tactical_moves board Color.White
        if tactical.isEmpty then stand_pat
        else
          q_loop_max (fun b a bt => quiescence_search fuel b a bt false) board beta
            (order_moves tactical) alpha
    else
      if stand_pat ≤ alpha then alpha
      else
        let beta := min beta stand_pat
        let tactical := generate_tactical_moves board Color.Black
        if tactical.isEmpty then stand_pat
        else
          q_loop_min (fun b a bt => quiescence_search fuel b a bt true) board alpha
            (order_moves tactical) beta

/-- Exchange positions `0` and `idx` of a list (Rust `moves.swap(0, idx)`). -/
def list_swap_head (l : List α) (idx : Nat) : List α :=
  match l, idx with
  | l, 0 => l
  | [], _ + 1 => []
  | x :: xs, i + 1 =>
    match xs.get? i with
    | some y => y :: xs.set i x
    | none => x :: xs

/-- Move-ordering step of `alpha_beta`: when the table offers a best move
that occurs in the list, swap it to the front; order the tail (or the
whole list when there is no table move). -/
def reorder_with_tt (tt_best : Option Move) (moves : List Move) : List Move :=
  match tt_best with
  | some bm =>
    let moves :=
      match moves.findIdx? (fun m => m.from_sq = bm.from_sq ∧ m.to_sq = bm.to_sq) with
      | some idx => list_swap_head moves idx
      | none => moves
    match moves with
    | [] => []
    | m0 :: rest => m0 :: order_moves rest
  | none => order_moves moves

/-- Transposition-table step at the head of `alpha_beta`: `inl s` models
an early return of `s`, `inr` carries the updated window. -/
def ab_probe_step (tt : TranspositionTable) (board : Board) (depth alpha beta : Int) :
    Sum Int (Int × Int) :=
  match tt.probe board with
  | some e =>
    if e.depth ≥ depth then
      match e.entry_type with
      | .Exact => .inl e.score
      | .Lower =>
        let alpha := max alpha e.score
        if alpha ≥ beta then .inl e.score else .inr (alpha, beta)
      | .Upper =>
        let beta := min beta e.score
        if alpha ≥ beta then .inl e.score else .inr (alpha, beta)
    else .inr (alpha, beta)
  | none => .inr (alpha, beta)

/-- Maximizing move loop of `alpha_beta`; returns the best score, the best
move, and the threaded table.  Breaks when `beta ≤ alpha` after the
window update. -/
def ab_loop_max (f : Board → Int → Int → TranspositionTable → Int × TranspositionTable)
    (board : Board) (beta : Int) :
    List Move → Int → Int → Option Move → TranspositionTable →
    Int × Option Move × TranspositionTable
  | [], _, max_eval, best, tt => (max_eval, best, tt)
  | mv :: rest, alpha, max_eval, best, tt =>
    let r := f (apply_move board mv) alpha beta tt
    let max_eval2 := if r.1 > max_eval then r.1 else max_eval
    let best2 := if r.1 > max_eval then some mv else best
    let alpha2 := max alpha r.1
    if beta ≤ alpha2 then (max_eval2, best2, r.2)
    else ab_loop_max f board beta rest alpha2 max_eval2 best2 r.2

/-- Minimizing move loop of `alpha_beta`; also returns the final `beta`,
which the source consults when choosing the stored bound type. -/
def ab_loop_min (f : Board → Int → Int → TranspositionTable → Int × TranspositionTable)
    (board : Board) (alpha : Int) :
    List Move → Int → Int → Option Move → TranspositionTable →
    Int × Int × Option Move × TranspositionTable
  | [], beta, min_eval, best, tt => (min_eval, beta, best, tt)
  | mv :: rest, beta, min_eval, best, tt =>
    let r := f (apply_move board mv) alpha beta tt
    let min_eval2 := if r.1 < min_eval then r.1 else min_eval
    let best2 := if r.1 < min_eval then some mv else best
    let beta2 := min beta r.1
    if beta2 ≤ alpha then (min_eval2, beta2, best2, r.2)
    else ab_loop_min f board alpha rest beta2 min_eval2 best2 r.2

/-- Rust `alpha_beta`.  `depth` is the remaining depth (a `Nat`; the
callers only pass non-negative depths), the table is threaded in place of
the `&mut` reference, and the `stats` parameter (pure counters) is
omitted. -/
def alpha_beta : Nat → Bool → Board → Int → Int → Bool → TranspositionTable →
    Int × TranspositionTable
  | 0, use_quiescence, board, alpha0, beta0, maximizing, tt =>
    let color := if maximizing then Color.White else Color.Black
    let in_check := is_in_check board color
    match ab_probe_step tt board 0 alpha0 beta0 with
    | .inl score => (score, tt)
    | .inr (alpha, beta) =>
      let moves := generate_all_legal_moves board color
      if moves.isEmpty then
        (if in_check then
           (if maximizing then -CHECKMATE_VALUE + 0 else CHECKMATE_VALUE - 0)
         else STALEMATE_VALUE, tt)
      else
        (if use_quiescence then quiescence_search 8 board alpha beta maximizing
         else evaluate_position board, tt)
  | d + 1, use_quiescence, board, alpha0, beta0, maximizing, tt =>
    let color := if maximizing then Color.White else Color.Black
    let in_check := is_in_check board color
    match ab_probe_step tt board ((d : Int) + 1) alpha0 beta0 with
    | .inl score => (score, tt)
    | .inr (alpha, beta) =>
      let moves := generate_all_legal_moves board color
      if moves.isEmpty then
        (if in_check then
           (if maximizing then -CHECKMATE_VALUE + ((d : Int) + 1)
            else CHECKMATE_VALUE - ((d : Int) + 1))
         else STALEMATE_VALUE, tt)
      else
        let tt_best := (tt.probe board).bind (fun e => e.best_move)
        let ordered := reorder_with_tt tt_best moves
        if maximizing then
          let r := ab_loop_max (fun b a bt t => alpha_beta d use_quiescence b a bt false t)
            board beta ordered alpha (-CHECKMATE_VALUE - 1) none tt
          let tt_type :=
            if r.1 ≤ alpha0 then TTEntryType.Upper
            else if r.1 ≥ beta then TTEntryType.Lower
            else TTEntryType.Exact
          (r.1, (r.2.2).store board ((d : Int) + 1) r.1 tt_type r.2.1)
        else
          let r := ab_loop_min (fun b a bt t => alpha_beta d use_quiescence b a bt true t)
            board alpha ordered beta (CHECKMATE_VALUE + 1) none tt
          let tt_type :=
            if r.1 ≥ r.2.1 then TTEntryType.Lower
            else if r.1 ≤ alpha0 then TTEntryType.Upper
            else TTEntryType.Exact
          (r.1, (r.2.2.2).store board ((d : Int) + 1) r.1 tt_type r.2.2.1)

-- ============================================================================
-- tablebase.rs: types and configuration detection
-- ============================================================================

inductive WDLOutcome where
  | Win | Draw | Loss
deriving DecidableEq

structure SerializedMove where
  from_q : Int
  from_r : Int
  to_q : Int
  to_r : Int
  promotion : Option PieceType
deriving DecidableEq

/-- Rust `SerializedMove::from_move`. -/
def SerializedMove.from_move (mv : Move) : SerializedMove :=
  ⟨mv.from_sq.q, mv.from_sq.r, mv.to_sq.q, mv.to_sq.r, mv.promotion⟩

structure TablebaseEntry where
  wdl : WDLOutcome
  dtm : Int
  best_move : Option SerializedMove
deriving DecidableEq

structure TablebaseConfig where
  stronger_side : List PieceType
  weaker_side : List PieceType
  name : String
deriving DecidableEq

/-- Tablebase position key: the canonical board plus the side to move
(model of the fingerprint string suffixed with `"-w"`/`"-b"`). -/
abbrev TBKey := Board × Color

/-- Rust `get_tablebase_key`. -/
def get_tablebase_key (board : Board) (side_to_move : Color) : TBKey :=
  (canon_board board, side_to_move)

abbrev TBEntries := List (TBKey × TablebaseEntry)

abbrev TBPosMap := List (TBKey × (Board × Color))

/-- Tablebase for one configuration (Rust `PieceTablebase`; the
description string and timing metadata are not modelled). -/
structure PieceTablebase where
  name : String
  entries : TBEntries
  size : Nat
deriving DecidableEq

structure TablebaseProbeResult where
  found : Bool
  entry : Option TablebaseEntry
  tablebase_name : Option String
deriving DecidableEq

/-- Rust `piece_abbrev`. -/
def piece_abbrev : PieceType → String
  | .Queen => "Q"
  | .Lance => "L"
  | .Chariot => "C"
  | .Knight => "N"
  | .Pawn => "P"
  | .King => "K"

/-- Rank of an abbreviation in byte order (`"C" < "K" < "L" < "N" < "P" <
"Q"`); `sort_by_key(piece_abbrev)` is modelled as a stable sort by this
rank. -/
def piece_abbrev_rank : PieceType → Nat
  | .Chariot => 0
  | .King => 1
  | .Lance => 2
  | .Knight => 3
  | .Pawn => 4
  | .Queen => 5

/-- Rust `detect_configuration`. -/
def detect_configuration (board : Board) : Option TablebaseConfig :=
  let white_pieces := board.filterMap (fun e =>
    if e.2.piece_type = PieceType.King then none
    else if e.2.color = Color.White then some e.2.piece_type else none)
  let black_pieces := board.filterMap (fun e =>
    if e.2.piece_type = PieceType.King then none
    else if e.2.color = Color.Black then some e.2.piece_type else none)
  if white_pieces.isEmpty ∧ black_pieces.isEmpty then
    some ⟨[], [], "KvK"⟩
  else
    let sw := if black_pieces.length ≤ white_pieces.length
      then (white_pieces, black_pieces) else (black_pieces, white_pieces)
    let stronger_sorted := sortBy (fun a b => piece_abbrev_rank a ≤ piece_abbrev_rank b) sw.1
    let weaker_sorted := sortBy (fun a b => piece_abbrev_rank a ≤ piece_abbrev_rank b) sw.2
    let name := "K" ++ (stronger_sorted.map piece_abbrev).foldl (fun a s => a ++ s) ""
      ++ "vK" ++ (weaker_sorted.map piece_abbrev).foldl (fun a s => a ++ s) ""
    if 2 + stronger_sorted.length + weaker_sorted.length > 5 then none
    else if ¬ weaker_sorted.isEmpty then none
    else some ⟨stronger_sorted, weaker_sorted, name⟩

-- ============================================================================
-- tablebase.rs: position enumeration
-- ============================================================================

/-- Adjacency test of `generate_all_positions`: hex distance of the two
kings at most 1 (written with the explicit coordinate differences of the
source). -/
def kings_too_close (wk bk : HexCoord) : Bool :=
  let dq := (wk.q - bk.q).natAbs
  let dr := (wk.r - bk.r).natAbs
  let ds := ((-wk.q - wk.r) - (-bk.q - bk.r)).natAbs
  max (max dq dr) ds ≤ 1

/-- The two kings of an enumerated position. -/
def mk_two_kings (wk bk : HexCoord) : Board :=
  alInsert (alInsert [] wk (Piece.new PieceType.King Color.White)) bk
    (Piece.new PieceType.King Color.Black)

/-- Lance pieces are enumerated in both variants, all others once. -/
def lance_variants_for (pt : PieceType) : List (Option LanceVariant) :=
  if pt = PieceType.Lance then [some LanceVariant.A, some LanceVariant.B] else [none]

/-- Rust `is_illegal_position`: the side NOT to move is in check. -/
def is_illegal_position (board : Board) (side_to_move : Color) : Bool :=
  is_in_check board side_to_move.opposite

/-- Rust `generate_all_positions`.  Note the extra (stronger-side) piece
is always placed as White; configurations with two or more stronger-side
pieces yield no positions. -/
def generate_all_positions (config : TablebaseConfig) : List (Board × Color) :=
  get_all_cells.flatMap (fun wk =>
    get_all_cells.flatMap (fun bk =>
      if wk = bk then []
      else if kings_too_close wk bk then []
      else
        let remaining := get_all_cells.filter (fun c => ¬ c = wk ∧ ¬ c = bk)
        match config.stronger_side with
        | [] =>
          [Color.White, Color.Black].filterMap (fun side_to_move =>
            let board := mk_two_kings wk bk
            if is_illegal_position board side_to_move then none
            else some (board, side_to_move))
        | [piece_type] =>
          remaining.flatMap (fun piece_pos =>
            [Color.White, Color.Black].flatMap (fun side_to_move =>
              (lance_variants_for piece_type).filterMap (fun variant =>
                let piece :=
                  match variant with
                  | some v => Piece.lance Color.White v
                  | none => Piece.new piece_type Color.White
                let board := alInsert (mk_two_kings wk bk) piece_pos piece
                if is_illegal_position board side_to_move then none
                else some (board, side_to_move))))
        | _ => []))

-- ============================================================================
-- tablebase.rs: retrograde analysis
-- ============================================================================

/-- Rust `get_terminal_outcome`. -/
def get_terminal_outcome (board : Board) (side_to_move : Color) :
    Option (WDLOutcome × Int) :=
  if (generate_all_legal_moves board side_to_move).isEmpty then
    if is_in_check board side_to_move then some (WDLOutcome.Loss, 0)
    else some (WDLOutcome.Draw, -1)
  else none

/-- State after phase 1 of `generate_tablebase`: resolved entries, the
still-unknown keys (a `HashSet`, modelled as a duplicate-free list in
insertion order), and the key → position index. -/
structure TBGenState where
  entries : TBEntries
  unknown : List TBKey
  pos_map : TBPosMap

/-- One step of phase 1: index the position and, when it is terminal,
record its entry, otherwise add its key to the unknown set. -/
def tb_phase1_step (st : TBGenState) (pos : Board × Color) : TBGenState :=
  let k := get_tablebase_key pos.1 pos.2
  let pm := alInsert st.pos_map k pos
  match get_terminal_outcome pos.1 pos.2 with
  | some wd => ⟨alInsert st.entries k ⟨wd.1, wd.2, none⟩, st.unknown, pm⟩
  | none =>
    ⟨st.entries, if k ∈ st.unknown then st.unknown else st.unknown ++ [k], pm⟩

/-- Phase 1 of `generate_tablebase`: index every position and resolve the
terminal ones. -/
def tb_phase1 (positions : List (Board × Color)) : TBGenState :=
  positions.foldl tb_phase1_step ⟨[], [], []⟩

/-- Accumulator of the per-position move scan of the retrograde pass. -/
structure TBScanState where
  has_winning_move : Bool
  all_moves_lose : Bool
  best_move_info : Option (SerializedMove × Int)
  max_dtm : Int
deriving DecidableEq

/-- One move of the move scan of the retrograde pass: classify the
successor reached by `mv` against the current entries. -/
def tb_scan_step (entries : TBEntries) (board : Board) (side_to_move : Color)
    (s : TBScanState) (mv : Move) : TBScanState :=
  match alLookup entries (get_tablebase_key (apply_move board mv) side_to_move.opposite) with
  | none => { s with all_moves_lose := false }
  | some entry =>
    match entry.wdl with
    | .Loss =>
      let new_dtm := entry.dtm + 1
      let better :=
        match s.best_move_info with
        | none => true
        | some bi => new_dtm < bi.2
      { s with
          has_winning_move := true,
          best_move_info :=
            if better then some (SerializedMove.from_move mv, new_dtm)
            else s.best_move_info }
    | .Win => { s with max_dtm := max s.max_dtm entry.dtm }
    | .Draw => { s with all_moves_lose := false }

/-- Move scan of the retrograde pass: classify the successors of one
position against the current entries. -/
def tb_scan_moves (entries : TBEntries) (board : Board) (side_to_move : Color)
    (moves : List Move) (s : TBScanState) : TBScanState :=
  moves.foldl (tb_scan_step entries board side_to_move) s

/-- One retrograde pass over the unknown keys; returns the grown entries,
the keys still unknown (in order), and whether anything was resolved. -/
def tb_pass (pm : TBPosMap) : List TBKey → TBEntries → Bool →
    TBEntries × List TBKey × Bool
  | [], entries, changed => (entries, [], changed)
  | k :: rest, entries, changed =>
    match alLookup pm k with
    | none =>
      let r := tb_pass pm rest entries changed
      (r.1, k :: r.2.1, r.2.2)
    | some pos =>
      let moves := generate_all_legal_moves pos.1 pos.2
      let s := tb_scan_moves entries pos.1 pos.2 moves ⟨false, true, none, 0⟩
      if s.has_winning_move then
        match s.best_move_info with
        | some bi =>
          let entries2 := alInsert entries k ⟨WDLOutcome.Win, bi.2, some bi.1⟩
          tb_pass pm rest entries2 true
        | none =>
          let r := tb_pass pm rest entries changed
          (r.1, k :: r.2.1, r.2.2)
      else if s.all_moves_lose ∧ ¬ moves.isEmpty then
        let entries2 := alInsert entries k ⟨WDLOutcome.Loss, s.max_dtm + 1, none⟩
        tb_pass pm rest entries2 true
      else
        let r := tb_pass pm rest entries changed
        (r.1, k :: r.2.1, r.2.2)

/-- Fixed-point loop of phase 2 (`max_iterations = 500`): run passes while
something changed and fuel remains. -/
def tb_loop (pm : TBPosMap) : Nat → TBEntries → List TBKey → TBEntries × List TBKey
  | 0, entries, unknown => (entries, unknown)
  | fuel + 1, entries, unknown =>
    let r := tb_pass pm unknown entries false
    if r.2.2 then tb_loop pm fuel r.1 r.2.1 else (r.1, r.2.1)

/-- Phase 3: every position still unknown is recorded as a draw. -/
def tb_phase3 : TBEntries → List TBKey → TBEntries
  | entries, [] => entries
  | entries, k :: rest => tb_phase3 (alInsert entries k ⟨WDLOutcome.Draw, -1, none⟩) rest

/-- The entries produced by `generate_tablebase` together with the
position index built in phase 1 (internal state of the Rust function). -/
def generate_tablebase_state (config : TablebaseConfig) : TBEntries × TBPosMap :=
  let st1 := tb_phase1 (generate_all_positions config)
  let r := tb_loop st1.pos_map 500 st1.entries st1.unknown
  (tb_phase3 r.1 r.2, st1.pos_map)

/-- Rust `generate_tablebase` (entry counts of the metadata omitted). -/
def generate_tablebase (config : TablebaseConfig) : PieceTablebase :=
  let s := generate_tablebase_state config
  ⟨config.name, s.1, s.1.length⟩

/-- The phase-1 position index of `generate_tablebase`: the position that
belongs to each tablebase key. -/
def tb_position_map (config : TablebaseConfig) : TBPosMap :=
  (generate_tablebase_state config).2

-- ============================================================================
-- tablebase.rs: probe
-- ============================================================================

/-- Rust `get_tablebase`: the process-global registry (a locked `HashMap`
filled by `set_tablebase`) is modelled as an explicit association list
parameter. -/
def get_tablebase (registry : List (String × PieceTablebase)) (name : String) :
    Option PieceTablebase :=
  alLookup registry name

/-- Rust `probe_tablebase`. -/
def probe_tablebase (registry : List (String × PieceTablebase)) (board : Board)
    (side_to_move : Color) : TablebaseProbeResult :=
  match detect_configuration board with
  | none => ⟨false, none, none⟩
  | some config =>
    match get_tablebase registry config.name with
    | none => ⟨false, none, none⟩
    | some tablebase =>
      match alLookup tablebase.entries (get_tablebase_key board side_to_move) with
      | some entry => ⟨true, some entry, some config.name⟩
      | none => ⟨false, none, none⟩

/-- Rust `get_tablebase_score`. -/
def get_tablebase_score (registry : List (String × PieceTablebase)) (board : Board)
    (side_to_move : Color) : Option Int :=
  let result := probe_tablebase registry board side_to_move
  if ¬ result.found then none
  else
    match result.entry with
    | none => none
    | some entry =>
      some (match entry.wdl with
        | .Win => CHECKMATE_VALUE - entry.dtm
        | .Draw => 0
        | .Loss => -CHECKMATE_VALUE + entry.dtm)

-- ============================================================================
-- Predicates and concrete instances used by the claim statements
-- ============================================================================

/-- Keys of an association list are pairwise distinct — the invariant
every Rust `HashMap` maintains for its keys. -/
def alNodupKeys (l : List (κ × ν)) : Prop :=
  (alKeys l).Nodup

/-- The piece `apply_move` puts on the destination square: the promoted
piece when the move promotes, else the moving piece. -/
def placed_piece (mv : Move) : Piece :=
  match mv.promotion with
  | some promo_type => Piece.new promo_type mv.piece.color
  | none => mv.piece

/-- The documented `Piece` invariant: the variant field is present exactly
for lances. -/
def piece_variant_invariant (p : Piece) : Prop :=
  p.variant.isSome ↔ p.piece_type = PieceType.Lance

/-- Witness data for the winning pick of the retrograde move scan: some
move of `M` serialises to `bi.1` and reaches an entry that is a Loss with
distance-to-mate `bi.2 - 1`. -/
def BestWitness (entries : TBEntries) (board : Board) (side_to_move : Color)
    (M : List Move) (bi : SerializedMove × Int) : Prop :=
  ∃ mv ∈ M, SerializedMove.from_move mv = bi.1 ∧
    ∃ e2, alLookup entries (get_tablebase_key (apply_move board mv) side_to_move.opposite)
        = some e2 ∧
      e2.wdl = WDLOutcome.Loss ∧ e2.dtm = bi.2 - 1

/-- The tablebase invariant of claim C3: every winning entry carries a
best move, that move is legal in the entry's position, and applying it
(with the side to move flipped) reaches an entry that is a Loss with
distance-to-mate one less. -/
def WinEntryLinked (entries : TBEntries) (pm : TBPosMap) : Prop :=
  ∀ k e, alLookup entries k = some e → e.wdl = WDLOutcome.Win →
    ∃ pos, alLookup pm k = some pos ∧
    ∃ sm, e.best_move = some sm ∧
    ∃ mv, mv ∈ generate_all_legal_moves pos.1 pos.2 ∧
      SerializedMove.from_move mv = sm ∧
      ∃ e2, alLookup entries (get_tablebase_key (apply_move pos.1 mv) pos.2.opposite)
          = some e2 ∧
        e2.wdl = WDLOutcome.Loss ∧ e2.dtm = e.dtm - 1

/-- Distinct enumerated positions have distinct tablebase keys. -/
def PositionsKeyInjective (positions : List (Board × Color)) : Prop :=
  ∀ p1 ∈ positions, ∀ p2 ∈ positions,
    get_tablebase_key p1.1 p1.2 = get_tablebase_key p2.1 p2.2 → p1 = p2

/-- A board with a lone black king (the witness input of claim C4: the
maximizing side has no pieces, hence no legal moves and no king in
check). -/
def c4_board : Board :=
  [(⟨0, 0⟩, Piece.new PieceType.King Color.Black)]

/-- An empty transposition table with room for 1000 entries. -/
def empty_tt : TranspositionTable :=
  ⟨[], 1000⟩

/-- Ongoing game: white pawn one step before the promotion rank, the two
kings far away (the failing input of claim C6). -/
def c6_state : GameState :=
  ⟨[(⟨0, -3⟩, Piece.new PieceType.Pawn Color.White),
    (⟨0, 4⟩, Piece.new PieceType.King Color.White),
    (⟨4, 0⟩, Piece.new PieceType.King Color.Black)],
   Color.White, 1, 0, [], GameStatus.Ongoing⟩

/-- The KQvK configuration as seeded by `initialize_tablebases`. -/
def kqvk_config : TablebaseConfig :=
  ⟨[PieceType.Queen], [], "KQvK"⟩

/-- Registry state in which the KQvK tablebase is loaded (the relevant
part of the global registry after initialization). -/
def kqvk_registry : List (String × PieceTablebase) :=
  [("KQvK", generate_tablebase kqvk_config)]

/-- The KQvK position of claim C5 / scenario S8: white king (0,0), white
queen (2,0), black king (0,-4), built exactly as the enumeration builds
it. -/
def c5_position : Board :=
  alInsert (mk_two_kings ⟨0, 0⟩ ⟨0, -4⟩) ⟨2, 0⟩ (Piece.new PieceType.Queen Color.White)

/-- The reflection of `c5_position`: colors swapped and coordinates
negated. -/
def c5_reflected : Board :=
  [(⟨0, 0⟩, Piece.new PieceType.King Color.Black),
   (⟨-2, 0⟩, Piece.new PieceType.Queen Color.Black),
   (⟨0, 4⟩, Piece.new PieceType.King Color.White)]

/-- Invariant tying one stage of the retrograde analysis to its input:
the keys still unknown are absent from the grown entries and
duplicate-free, every winning entry is linked, and the combined domain
(entries plus unknown keys) equals the input domain. -/
abbrev TBInv (pm : TBPosMap) (entries : TBEntries) (klist : List TBKey)
    (r : TBEntries × List TBKey) : Prop :=
  (∀ k ∈ r.2, alLookup r.1 k = none) ∧ r.2.Nodup ∧ WinEntryLinked r.1 pm ∧
  (∀ k, (¬ alLookup r.1 k = none ∨ k ∈ r.2) ↔
    (¬ alLookup entries k = none ∨ k ∈ klist))

-- ============================================================================
-- Lemmas: association lists
-- ============================================================================

theorem alLookup_nil [DecidableEq κ] (k : κ) : alLookup ([] : List (κ × ν)) k = none := rfl

theorem alLookup_cons [DecidableEq κ] (e : κ × ν) (l : List (κ × ν)) (k : κ) :
    alLookup (e :: l) k = if e.1 = k then some e.2 else alLookup l k := by
  by_cases h : e.1 = k <;> simp [alLookup, List.find?, h]

theorem alLookup_eq_none_iff [DecidableEq κ] {l : List (κ × ν)} {k : κ} :
    alLookup l k = none ↔ ∀ e ∈ l, e.1 ≠ k := by
  simp [alLookup, List.find?_eq_none]

theorem alLookup_erase_self [DecidableEq κ] (l : List (κ × ν)) (k : κ) :
    alLookup (alErase l k) k = none := by
  rw [alLookup_eq_none_iff]
  intro e he
  simp [alErase, List.mem_filter] at he
  exact he.2

theorem alLookup_erase_ne [DecidableEq κ] (l : List (κ × ν)) {k k' : κ} (h : k' ≠ k) :
    alLookup (alErase l k) k' = alLookup l k' := by
  induction l with
  | nil => rfl
  | cons e l ih =>
    by_cases he : e.1 = k
    · have h2 : ¬ e.1 = k' := fun hh => h (hh ▸ he)
      have e1 : alErase (e :: l) k = alErase l k := by
        simp [alErase, List.filter_cons, he]
      rw [e1, ih, alLookup_cons, if_neg h2]
    · have e1 : alErase (e :: l) k = e :: alErase l k := by
        simp [alErase, List.filter_cons, he]
      rw [e1, alLookup_cons, alLookup_cons]
      by_cases h2 : e.1 = k'
      · simp [h2]
      · simp [h2, ih]

theorem alLookup_insert_self [DecidableEq κ] (l : List (κ × ν)) (k : κ) (v : ν) :
    alLookup (alInsert l k v) k = some v := by
  simp [alInsert, alLookup_cons]

theorem alLookup_insert_ne [DecidableEq κ] (l : List (κ × ν)) {k k' : κ} (v : ν)
    (h : k' ≠ k) : alLookup (alInsert l k v) k' = alLookup l k' := by
  unfold alInsert
  rw [alLookup_cons, if_neg (fun hh => h hh.symm)]
  exact alLookup_erase_ne l h

theorem mem_of_alLookup_eq_some [DecidableEq κ] {l : List (κ × ν)} {k : κ} {v : ν}
    (h : alLookup l k = some v) : (k, v) ∈ l := by
  simp only [alLookup, Option.map_eq_some'] at h
  obtain ⟨e, he, hev⟩ := h
  have hm := List.mem_of_find?_eq_some he
  have hp := List.find?_some he
  simp at hp
  cases e
  simp_all

theorem alLookup_eq_some_of_mem [DecidableEq κ] {l : List (κ × ν)} {k : κ} {v : ν}
    (hnd : alNodupKeys l) (hm : (k, v) ∈ l) : alLookup l k = some v := by
  induction l with
  | nil => simp at hm
  | cons e l ih =>
    simp only [alNodupKeys, alKeys, List.map_cons, List.nodup_cons] at hnd
    rcases List.mem_cons.1 hm with h | h
    · rw [← h, alLookup_cons]; simp
    · have hk : e.1 ≠ k := by
        intro hek
        exact hnd.1 (hek ▸ (List.mem_map.2 ⟨(k, v), h, rfl⟩))
      rw [alLookup_cons, if_neg hk]
      exact ih hnd.2 h

theorem alErase_of_lookup_none [DecidableEq κ] {l : List (κ × ν)} {k : κ}
    (h : alLookup l k = none) : alErase l k = l := by
  rw [alLookup_eq_none_iff] at h
  exact List.filter_eq_self.2 (fun e he => by simpa using h e he)

theorem alNodupKeys_erase [DecidableEq κ] {l : List (κ × ν)} (k : κ)
    (hnd : alNodupKeys l) : alNodupKeys (alErase l k) := by
  simp only [alNodupKeys, alKeys] at hnd ⊢
  exact ((List.filter_sublist l).map (fun e => e.1)).nodup hnd

theorem length_alErase_add_one [DecidableEq κ] {l : List (κ × ν)} {k : κ} {v : ν}
    (hnd : alNodupKeys l) (h : alLookup l k = some v) :
    (alErase l k).length + 1 = l.length := by
  induction l with
  | nil => simp [alLookup] at h
  | cons e l ih =>
    simp only [alNodupKeys, alKeys, List.map_cons, List.nodup_cons] at hnd
    by_cases he : e.1 = k
    · have e1 : alErase (e :: l) k = alErase l k := by
        simp [alErase, List.filter_cons, he]
      have hnone : alLookup l k = none := by
        rw [alLookup_eq_none_iff]
        intro x hx hxk
        exact hnd.1 (he ▸ hxk ▸ (List.mem_map.2 ⟨x, hx, rfl⟩))
      rw [e1, alErase_of_lookup_none hnone]
      simp
    · have e1 : alErase (e :: l) k = e :: alErase l k := by
        simp [alErase, List.filter_cons, he]
      rw [alLookup_cons, if_neg he] at h
      rw [e1]
      simp only [List.length_cons]
      have := ih hnd.2 h
      omega

theorem alLookup_erase_none_of_none [DecidableEq κ] {l : List (κ × ν)} {k k' : κ}
    (h : alLookup l k = none) : alLookup (alErase l k') k = none := by
  rw [alLookup_eq_none_iff] at h ⊢
  intro e he
  exact h e (List.mem_of_mem_filter he)

theorem mem_of_mem_alInsert [DecidableEq κ] {l : List (κ × ν)} {k : κ} {v : ν} {e : κ × ν}
    (h : e ∈ alInsert l k v) : e = (k, v) ∨ e ∈ l := by
  rcases List.mem_cons.1 h with h | h
  · exact Or.inl h
  · exact Or.inr (List.mem_of_mem_filter h)

-- ============================================================================
-- Lemmas: geometry and generated-move shape
-- ============================================================================

theorem add_direction_ne (c : HexCoord) (d : Direction) : ¬ add_direction c d = c := by
  cases c with
  | mk q r => cases d <;> simp [add_direction, Direction.delta]

theorem get_neighbor_eq_some {c : HexCoord} {d : Direction} {t : HexCoord}
    (h : get_neighbor c d = some t) : t = add_direction c d := by
  by_cases hv : is_valid_cell (add_direction c d)
  · simp [get_neighbor, hv] at h
    exact h.symm
  · simp [get_neighbor, hv] at h

theorem get_neighbor_ne {c : HexCoord} {d : Direction} {t : HexCoord}
    (h : get_neighbor c d = some t) : t ≠ c := by
  rw [get_neighbor_eq_some h]
  exact add_direction_ne c d

theorem get_ray_aux_mem {d : Direction} {t : HexCoord} :
    ∀ (fuel : Nat) (cur : HexCoord), t ∈ get_ray_aux d cur fuel →
      ∃ k : Nat, 1 ≤ k ∧ t.q = cur.q + k * d.delta.1 ∧ t.r = cur.r + k * d.delta.2 := by
  intro fuel
  induction fuel with
  | zero => intro cur h; simp [get_ray_aux] at h
  | succ n ih =>
    intro cur h
    simp only [get_ray_aux] at h
    by_cases hv : is_valid_cell (add_direction cur d)
    · rw [if_pos hv] at h
      rcases List.mem_cons.1 h with h1 | h1
      · refine ⟨1, le_refl 1, ?_, ?_⟩ <;> rw [h1] <;> simp [add_direction]
      · obtain ⟨k, hk, hq, hr⟩ := ih (add_direction cur d) h1
        refine ⟨k + 1, by omega, ?_, ?_⟩
        · rw [hq]; simp [add_direction]; ring
        · rw [hr]; simp [add_direction]; ring
    · rw [if_neg hv] at h
      simp at h

theorem mem_get_ray_ne {c : HexCoord} {d : Direction} {t : HexCoord}
    (h : t ∈ get_ray c d) : t ≠ c := by
  obtain ⟨k, hk, hq, hr⟩ := get_ray_aux_mem 100 c h
  intro he
  subst he
  cases d <;> simp [Direction.delta] at hq hr <;> omega

theorem mem_knight_targets_ne {c t : HexCoord} (h : t ∈ get_knight_targets c) : t ≠ c := by
  simp [get_knight_targets, KNIGHT_OFFSETS, List.mem_filter] at h
  intro he
  subst he
  cases t with
  | mk q r => rcases h.1 with h1|h1|h1|h1|h1|h1 <;> simp_all

theorem step_move_spec (b : Board) (p : Piece) (f t : HexCoord) :
    (step_move b p f t).piece = p ∧ (step_move b p f t).from_sq = f ∧
    (step_move b p f t).to_sq = t ∧ (step_move b p f t).captured = get_piece_at b t := by
  unfold step_move
  cases h : get_piece_at b t <;> simp [Move.new, Move.with_capture]

theorem pawn_moves_spec {b : Board} {p : Piece} {f : HexCoord} {m : Move}
    (h : m ∈ generate_pawn_moves b p f) :
    m.piece = p ∧ m.from_sq = f ∧ m.captured = get_piece_at b m.to_sq ∧ m.to_sq ≠ f := by
  simp only [generate_pawn_moves] at h
  rcases List.mem_append.1 h with h | h
  · cases hn : get_neighbor f (get_forward_direction p.color) with
    | none => simp [hn] at h
    | some fwd =>
      simp only [hn] at h
      by_cases hocc : is_occupied b fwd
      · simp [hocc] at h
      · have hlook : get_piece_at b fwd = none := by
          rw [← Option.not_isSome_iff_eq_none]
          simpa [is_occupied] using hocc
        by_cases hz : is_promotion_zone fwd p.color
        · simp [hocc, hz] at h
          obtain ⟨pt, _, hm⟩ := h
          subst hm
          simp [Move.new, Move.with_promotion, hlook, get_neighbor_ne hn]
        · simp [hocc, hz] at h
          subst h
          simp [Move.new, hlook, get_neighbor_ne hn]
  · obtain ⟨d, _, h⟩ := List.mem_flatMap.1 h
    cases hn : get_neighbor f d with
    | none => simp [hn] at h
    | some target =>
      simp only [hn] at h
      cases hv : get_piece_at b target with
      | none => simp [hv] at h
      | some victim =>
        simp only [hv] at h
        by_cases hc : victim.color = p.color
        · simp [hc] at h
        · by_cases hz : is_promotion_zone target p.color
          · simp [hc, hz] at h
            obtain ⟨pt, _, hm⟩ := h
            subst hm
            simp [Move.new, Move.with_promotion, Move.with_capture, hv, get_neighbor_ne hn]
          · simp [hc, hz] at h
            subst h
            simp [Move.new, Move.with_capture, hv, get_neighbor_ne hn]

theorem king_moves_spec {b : Board} {p : Piece} {f : HexCoord} {m : Move}
    (h : m ∈ generate_king_moves b p f) :
    m.piece = p ∧ m.from_sq = f ∧ m.captured = get_piece_at b m.to_sq ∧ m.to_sq ≠ f := by
  simp only [generate_king_moves] at h
  obtain ⟨d, _, h⟩ := List.mem_flatMap.1 h
  cases hn : get_neighbor f d with
  | none => simp [hn] at h
  | some target =>
    simp only [hn] at h
    by_cases hf : has_friendly b target p.color
    · simp [hf] at h
    · simp [hf] at h
      subst h
      have hs := step_move_spec b p f target
      refine ⟨hs.1, hs.2.1, ?_, ?_⟩
      · rw [hs.2.2.1]; exact hs.2.2.2
      · rw [hs.2.2.1]; exact get_neighbor_ne hn

theorem knight_moves_spec {b : Board} {p : Piece} {f : HexCoord} {m : Move}
    (h : m ∈ generate_knight_moves b p f) :
    m.piece = p ∧ m.from_sq = f ∧ m.captured = get_piece_at b m.to_sq ∧ m.to_sq ≠ f := by
  simp only [generate_knight_moves] at h
  obtain ⟨target, ht, h⟩ := List.mem_flatMap.1 h
  by_cases hf : has_friendly b target p.color
  · simp [hf] at h
  · simp [hf] at h
    subst h
    have hs := step_move_spec b p f target
    refine ⟨hs.1, hs.2.1, ?_, ?_⟩
    · rw [hs.2.2.1]; exact hs.2.2.2
    · rw [hs.2.2.1]; exact mem_knight_targets_ne ht

theorem slider_walk_spec {b : Board} {p : Piece} {f : HexCoord} :
    ∀ {ray : List HexCoord} {m : Move}, m ∈ slider_walk b p f ray →
      m.piece = p ∧ m.from_sq = f ∧ m.captured = get_piece_at b m.to_sq ∧ m.to_sq ∈ ray := by
  intro ray
  induction ray with
  | nil => intro m h; simp [slider_walk] at h
  | cons target rest ih =>
    intro m h
    simp only [slider_walk] at h
    cases hv : get_piece_at b target with
    | some other =>
      simp only [hv] at h
      by_cases hc : other.color = p.color
      · simp [hc] at h
      · simp [hc] at h
        subst h
        simp [Move.new, Move.with_capture, hv]
    | none =>
      simp only [hv] at h
      rcases List.mem_cons.1 h with h1 | h1
      · subst h1
        simp [Move.new, hv]
      · have := ih h1
        exact ⟨this.1, this.2.1, this.2.2.1, List.mem_cons.2 (Or.inr this.2.2.2)⟩

theorem slider_moves_spec {b : Board} {p : Piece} {f : HexCoord} {m : Move}
    (h : m ∈ generate_slider_moves b p f) :
    m.piece = p ∧ m.from_sq = f ∧ m.captured = get_piece_at b m.to_sq ∧ m.to_sq ≠ f := by
  simp only [generate_slider_moves] at h
  obtain ⟨d, _, h⟩ := List.mem_flatMap.1 h
  have hs := slider_walk_spec h
  exact ⟨hs.1, hs.2.1, hs.2.2.1, mem_get_ray_ne hs.2.2.2⟩

/-- Shape of every pseudo-legal move: it carries the queried piece and
origin, its capture field records exactly what the board holds at the
destination, and the destination differs from the origin. -/
theorem pseudo_moves_spec {b : Board} {p : Piece} {f : HexCoord} {m : Move}
    (h : m ∈ generate_pseudo_legal_moves b p f) :
    m.piece = p ∧ m.from_sq = f ∧ m.captured = get_piece_at b m.to_sq ∧ m.to_sq ≠ f := by
  unfold generate_pseudo_legal_moves at h
  rcases hpt : p.piece_type <;> simp only [hpt] at h
  case Pawn => exact pawn_moves_spec h
  case King => exact king_moves_spec h
  case Knight => exact knight_moves_spec h
  case Queen => exact slider_moves_spec h
  case Lance => exact slider_moves_spec h
  case Chariot => exact slider_moves_spec h

-- ============================================================================
-- C1: legal moves are exactly the safe pseudo-legal moves
-- ============================================================================

/-- C1: a move is in `generate_legal_moves(B, P, from)` exactly when it is
in `generate_pseudo_legal_moves(B, P, from)` and applying it leaves P's
color not in check; in particular the legal list is a subset of the
pseudo-legal list, and conversely every pseudo-legal move whose
application leaves the mover's king safe is legal. -/
theorem c1_legal_iff_pseudo_and_no_check (board : Board) (piece : Piece)
    (from_sq : HexCoord) (m : Move) :
    m ∈ generate_legal_moves board piece from_sq ↔
      m ∈ generate_pseudo_legal_moves board piece from_sq ∧
        is_in_check (apply_move board m) piece.color = false := by
  simp [generate_legal_moves, List.mem_filter, Bool.not_eq_true']

-- ============================================================================
-- C2: effect of apply_move on a legal move
-- ============================================================================

/-- C2: applying a legal move empties the source square, puts the moving
piece (or the promoted piece) on the destination, leaves every other
square unchanged, and shrinks the piece count by one exactly when the
move captures.  `alNodupKeys` is the key-uniqueness invariant of the Rust
`HashMap` holding the board. -/
theorem c2_apply_move_frame (b : Board) (color : Color) (m : Move)
    (hwf : alNodupKeys b) (hm : m ∈ generate_all_legal_moves b color) :
    get_piece_at (apply_move b m) m.from_sq = none ∧
    get_piece_at (apply_move b m) m.to_sq = some (placed_piece m) ∧
    (∀ c : HexCoord, c ≠ m.from_sq → c ≠ m.to_sq →
      get_piece_at (apply_move b m) c = get_piece_at b c) ∧
    (apply_move b m).length + (if m.captured.isSome then 1 else 0) = b.length := by
  have hex : ∃ e ∈ b, e.2.color = color ∧ m ∈ generate_legal_moves b e.2 e.1 := by
    simp only [generate_all_legal_moves] at hm
    obtain ⟨e, he, hmm⟩ := List.mem_flatMap.1 hm
    by_cases hc : e.2.color = color
    · exact ⟨e, he, hc, by simpa [hc] using hmm⟩
    · simp [hc] at hmm
  obtain ⟨e, he, hcol, hl⟩ := hex
  have hp := pseudo_moves_spec (List.mem_filter.1 hl).1
  have hfrom : get_piece_at b m.from_sq = some m.piece := by
    rw [hp.2.1, hp.1]
    exact alLookup_eq_some_of_mem hwf (by simpa using he)
  have hne : m.to_sq ≠ m.from_sq := hp.2.1 ▸ hp.2.2.2
  have happ : apply_move b m = alInsert (alErase b m.from_sq) m.to_sq (placed_piece m) := by
    simp only [apply_move, placed_piece]
  refine ⟨?_, ?_, ?_, ?_⟩
  · rw [happ]
    show alLookup (alInsert (alErase b m.from_sq) m.to_sq (placed_piece m)) m.from_sq = none
    rw [alLookup_insert_ne _ _ (fun hh => hne hh.symm)]
    exact alLookup_erase_self b m.from_sq
  · rw [happ]
    exact alLookup_insert_self _ _ _
  · intro c hcf hct
    rw [happ]
    show alLookup (alInsert (alErase b m.from_sq) m.to_sq (placed_piece m)) c
        = get_piece_at b c
    rw [alLookup_insert_ne _ _ hct, alLookup_erase_ne _ hcf]
    rfl
  · have hlen1 := length_alErase_add_one hwf hfrom
    cases hcv : m.captured with
    | none =>
      have h1 : get_piece_at b m.to_sq = none := by rw [← hp.2.2.1, hcv]
      have h2 : alLookup (alErase b m.from_sq) m.to_sq = none :=
        alLookup_erase_none_of_none h1
      have h3 : alErase (alErase b m.from_sq) m.to_sq = alErase b m.from_sq :=
        alErase_of_lookup_none h2
      rw [happ]
      show (alInsert (alErase b m.from_sq) m.to_sq (placed_piece m)).length + 0 = b.length
      simp only [alInsert, List.length_cons, h3]
      omega
    | some cp =>
      have h1 : get_piece_at b m.to_sq = some cp := by rw [← hp.2.2.1, hcv]
      have h2 : alLookup (alErase b m.from_sq) m.to_sq = some cp := by
        rw [alLookup_erase_ne _ hne]
        exact h1
      have hnd2 : alNodupKeys (alErase b m.from_sq) := alNodupKeys_erase _ hwf
      have hlen2 := length_alErase_add_one hnd2 h2
      rw [happ]
      show (alInsert (alErase b m.from_sq) m.to_sq (placed_piece m)).length + 1 = b.length
      simp only [alInsert, List.length_cons]
      omega

/-- Witness for C2: a lone white pawn on (0,2) moving forward to (0,1);
the hypotheses hold by computation and the conclusions are instantiated
at that input (the frame condition is sampled at the untouched cell
(1,1)). -/
theorem c2_apply_move_frame_witness :
    (alNodupKeys [((⟨0, 2⟩ : HexCoord), Piece.new PieceType.Pawn Color.White)] ∧
     Move.new (Piece.new PieceType.Pawn Color.White) ⟨0, 2⟩ ⟨0, 1⟩ ∈
       generate_all_legal_moves [(⟨0, 2⟩, Piece.new PieceType.Pawn Color.White)] Color.White) ∧
    get_piece_at
      (apply_move [(⟨0, 2⟩, Piece.new PieceType.Pawn Color.White)]
        (Move.new (Piece.new PieceType.Pawn Color.White) ⟨0, 2⟩ ⟨0, 1⟩)) ⟨0, 2⟩ = none ∧
    get_piece_at
      (apply_move [(⟨0, 2⟩, Piece.new PieceType.Pawn Color.White)]
        (Move.new (Piece.new PieceType.Pawn Color.White) ⟨0, 2⟩ ⟨0, 1⟩)) ⟨1, 1⟩ =
      get_piece_at [(⟨0, 2⟩, Piece.new PieceType.Pawn Color.White)] ⟨1, 1⟩ ∧
    (apply_move [(⟨0, 2⟩, Piece.new PieceType.Pawn Color.White)]
        (Move.new (Piece.new PieceType.Pawn Color.White) ⟨0, 2⟩ ⟨0, 1⟩)).length +
      (if (Move.new (Piece.new PieceType.Pawn Color.White) ⟨0, 2⟩ ⟨0, 1⟩).captured.isSome
       then 1 else 0) =
      [((⟨0, 2⟩ : HexCoord), Piece.new PieceType.Pawn Color.White)].length := by
  have h1 : alNodupKeys [((⟨0, 2⟩ : HexCoord), Piece.new PieceType.Pawn Color.White)] := by
    simp [alNodupKeys, alKeys]
  have h2 : Move.new (Piece.new PieceType.Pawn Color.White) ⟨0, 2⟩ ⟨0, 1⟩ ∈
      generate_all_legal_moves [(⟨0, 2⟩, Piece.new PieceType.Pawn Color.White)] Color.White := by
    decide
  have h := c2_apply_move_frame _ Color.White _ h1 h2
  exact ⟨⟨h1, h2⟩, h.1, h.2.2.1 ⟨1, 1⟩ (by decide) (by decide), h.2.2.2⟩

-- ============================================================================
-- C4: alpha-beta at a position without legal moves
-- ============================================================================

theorem ab_probe_step_of_none {tt : TranspositionTable} {b : Board}
    (hprobe : tt.probe b = none) (depth alpha beta : Int) :
    ab_probe_step tt b depth alpha beta = Sum.inr (alpha, beta) := by
  unfold ab_probe_step
  rw [hprobe]

/-- C4: when the side to move has no legal moves (and the transposition
table, which the claim's `alpha_beta(B, d, α, β, maximizing)` signature
does not carry, has no entry for the position), `alpha_beta` returns
`-(CHECKMATE_VALUE - d)` for a maximizing side in check,
`+(CHECKMATE_VALUE - d)` for a minimizing side in check, and `0` when the
side is not in check. -/
theorem c4_alpha_beta_terminal (d : Nat) (use_quiescence : Bool) (b : Board)
    (alpha beta : Int) (maximizing : Bool) (tt : TranspositionTable)
    (hprobe : tt.probe b = none)
    (hmoves : generate_all_legal_moves b
      (if maximizing then Color.White else Color.Black) = []) :
    (alpha_beta d use_quiescence b alpha beta maximizing tt).1 =
      if is_in_check b (if maximizing then Color.White else Color.Black) then
        (if maximizing then -(CHECKMATE_VALUE - (d : Int)) else CHECKMATE_VALUE - (d : Int))
      else 0 := by
  cases d with
  | zero =>
    simp only [alpha_beta, ab_probe_step_of_none hprobe, hmoves, List.isEmpty_nil,
      if_true]
    cases maximizing with
    | false =>
      cases hic : is_in_check b Color.Black <;>
        simp_all [CHECKMATE_VALUE, STALEMATE_VALUE]
    | true =>
      cases hic : is_in_check b Color.White <;>
        simp_all [CHECKMATE_VALUE, STALEMATE_VALUE]
  | succ n =>
    simp only [alpha_beta, ab_probe_step_of_none hprobe, hmoves, List.isEmpty_nil,
      if_true]
    cases maximizing with
    | false =>
      cases hic : is_in_check b Color.Black <;>
        simp_all [CHECKMATE_VALUE, STALEMATE_VALUE]
    | true =>
      cases hic : is_in_check b Color.White <;>
        simp_all [CHECKMATE_VALUE, STALEMATE_VALUE]
      all_goals omega

/-- Witness for C4: depth 3, maximizing, empty table, a board holding only
the black king — White has no moves and no king, so the result is the
stalemate score 0. -/
theorem c4_alpha_beta_terminal_witness :
    (empty_tt.probe c4_board = none ∧
     generate_all_legal_moves c4_board Color.White = []) ∧
    (alpha_beta 3 false c4_board (-1) 1 true empty_tt).1 = 0 := by
  have h1 : empty_tt.probe c4_board = none := rfl
  have h2 : generate_all_legal_moves c4_board Color.White = [] := by decide
  refine ⟨⟨h1, h2⟩, ?_⟩
  have h := c4_alpha_beta_terminal 3 false c4_board (-1) 1 true empty_tt h1 h2
  rw [h]
  decide

-- ============================================================================
-- C7: make_move rejects exactly the invalid requests
-- ============================================================================

theorem validate_legal_piece {b : Board} {f t : HexCoord} {turn : Color}
    (h : (validate_move b f t turn).legal = true) :
    ∃ p, get_piece_at b f = some p := by
  unfold validate_move at h
  cases hp : get_piece_at b f with
  | none => simp only [hp] at h; simp at h
  | some p => exact ⟨p, rfl⟩

/-- C7: `make_move` returns `none` exactly when the game is not ongoing
or the move fails validation (the input state, taken by reference, is
never modified); on success it returns a state with the validated move
applied and the turn flipped. -/
theorem c7_make_move_contract (s : GameState) (from_sq to_sq : HexCoord) :
    (make_move s from_sq to_sq = none ↔
      (s.status ≠ GameStatus.Ongoing ∨
        (validate_move s.board from_sq to_sq s.turn).legal = false)) ∧
    (make_move s from_sq to_sq).elim True (fun s2 =>
      ∃ p, get_piece_at s.board from_sq = some p ∧
        s2.board = apply_move s.board
          ⟨from_sq, to_sq, p, get_piece_at s.board to_sq, none⟩ ∧
        s2.turn = s.turn.opposite) := by
  by_cases hst : s.status = GameStatus.Ongoing
  · by_cases hv : (validate_move s.board from_sq to_sq s.turn).legal = true
    · obtain ⟨p, hp⟩ := validate_legal_piece hv
      have hmm : make_move s from_sq to_sq = some
          ⟨apply_move s.board ⟨from_sq, to_sq, p, get_piece_at s.board to_sq, none⟩,
           s.turn.opposite,
           (if s.turn = Color.Black then s.move_number + 1 else s.move_number),
           (if p.piece_type = PieceType.Pawn ∨ (get_piece_at s.board to_sq).isSome
            then 0 else s.half_move_clock + 1),
           s.history ++ [⟨from_sq, to_sq, p, get_piece_at s.board to_sq, none⟩],
           determine_status
             (apply_move s.board ⟨from_sq, to_sq, p, get_piece_at s.board to_sq, none⟩)
             s.turn.opposite⟩ := by
        simp [make_move, hst, hv, hp]
      refine ⟨?_, ?_⟩
      · rw [hmm]
        simp [hst, hv]
      · rw [hmm]
        exact ⟨p, hp, rfl, rfl⟩
    · rw [Bool.not_eq_true] at hv
      have hmm : make_move s from_sq to_sq = none := by
        simp [make_move, hst, hv]
      rw [hmm]
      simp [hst, hv]
  · have hmm : make_move s from_sq to_sq = none := by
      simp [make_move, hst]
    rw [hmm]
    simp [hst]

-- ============================================================================
-- C8: transposition table store/probe and the depth policy
-- ============================================================================

theorem tt_store_insert (tt : TranspositionTable) (b : Board) (d s : Int)
    (t : TTEntryType) (m : Option Move)
    (hcap : tt.table.length < tt.max_size)
    (hdeep : ∀ e, tt.probe b = some e → e.depth ≤ d) :
    tt.store b d s t m =
      ⟨alInsert tt.table (TranspositionTable.generate_hash b) ⟨s, d, t, m⟩,
       tt.max_size⟩ := by
  have hno : ¬ tt.table.length ≥ tt.max_size := by omega
  cases hex : alLookup tt.table (TranspositionTable.generate_hash b) with
  | none => simp [TranspositionTable.store, hno, hex]
  | some e => simp [TranspositionTable.store, hno, hex, hdeep e hex]

theorem tt_store_keep (tt : TranspositionTable) (b : Board) (d s : Int)
    (t : TTEntryType) (m : Option Move) (e : TTEntry)
    (hcap : tt.table.length < tt.max_size)
    (hex : tt.probe b = some e) (hgt : ¬ e.depth ≤ d) :
    tt.store b d s t m = ⟨tt.table, tt.max_size⟩ := by
  have hno : ¬ tt.table.length ≥ tt.max_size := by omega
  have hex2 : alLookup tt.table (TranspositionTable.generate_hash b) = some e := hex
  simp [TranspositionTable.store, hno, hex2, hgt]

/-- C8: on a table with free capacity, storing then probing returns the
stored score, depth and bound (provided no strictly deeper entry already
occupies the key, which is what the store policy itself guarantees can
block a write); afterwards a shallower store leaves the entry unchanged
while a store of greater or equal depth replaces it. -/
theorem c8_tt_store_then_probe (tt : TranspositionTable) (b : Board) (d s : Int)
    (t : TTEntryType) (m : Option Move)
    (hcap : tt.table.length < tt.max_size)
    (hdeep : ∀ e, tt.probe b = some e → e.depth ≤ d) :
    (tt.store b d s t m).probe b = some ⟨s, d, t, m⟩ ∧
    ∀ d2 s2 t2 m2,
      (tt.store b d s t m).table.length < (tt.store b d s t m).max_size →
      ((d2 < d →
        ((tt.store b d s t m).store b d2 s2 t2 m2).probe b = some ⟨s, d, t, m⟩) ∧
       (d ≤ d2 →
        ((tt.store b d s t m).store b d2 s2 t2 m2).probe b = some ⟨s2, d2, t2, m2⟩)) := by
  have hstore := tt_store_insert tt b d s t m hcap hdeep
  have hprobe1 : (tt.store b d s t m).probe b = some ⟨s, d, t, m⟩ := by
    rw [hstore]
    exact alLookup_insert_self _ _ _
  refine ⟨hprobe1, ?_⟩
  intro d2 s2 t2 m2 hcap2
  constructor
  · intro hlt
    have h2 := tt_store_keep (tt.store b d s t m) b d2 s2 t2 m2 ⟨s, d, t, m⟩ hcap2
      hprobe1 (by simp; omega)
    rw [h2]
    show alLookup (tt.store b d s t m).table _ = _
    exact hprobe1
  · intro hge
    have hdeep2 : ∀ e, (tt.store b d s t m).probe b = some e → e.depth ≤ d2 := by
      intro e he
      rw [hprobe1] at he
      cases he
      simpa using hge
    have h2 := tt_store_insert (tt.store b d s t m) b d2 s2 t2 m2 hcap2 hdeep2
    rw [h2]
    exact alLookup_insert_self _ _ _

/-- Witness for C8: an empty table of capacity 1000 and the empty board;
store depth 5, then a shallower store (depth 3) keeps the old entry and a
deeper store (depth 6) replaces it. -/
theorem c8_tt_store_then_probe_witness :
    (empty_tt.store [] 5 42 TTEntryType.Exact none).probe [] =
      some ⟨42, 5, TTEntryType.Exact, none⟩ ∧
    ((empty_tt.store [] 5 42 TTEntryType.Exact none).store [] 3 7
        TTEntryType.Lower none).probe [] = some ⟨42, 5, TTEntryType.Exact, none⟩ ∧
    ((empty_tt.store [] 5 42 TTEntryType.Exact none).store [] 6 9
        TTEntryType.Upper none).probe [] = some ⟨9, 6, TTEntryType.Upper, none⟩ := by
  have hcap : empty_tt.table.length < empty_tt.max_size := by
    simp [empty_tt]
  have hdeep : ∀ e, empty_tt.probe [] = some e → e.depth ≤ 5 := by
    intro e he
    simp [TranspositionTable.probe, empty_tt, alLookup] at he
  have h := c8_tt_store_then_probe empty_tt [] 5 42 TTEntryType.Exact none hcap hdeep
  refine ⟨h.1, ?_, ?_⟩
  · exact (h.2 3 7 TTEntryType.Lower none (by decide)).1 (by decide)
  · exact (h.2 6 9 TTEntryType.Upper none (by decide)).2 (by decide)

-- ============================================================================
-- C9: the variant/Lance invariant (corrected)
-- ============================================================================

/-- Counterexample to C9 as stated: the public constructor
`Piece::new(Lance, White)` yields a Lance whose variant field is absent,
violating "variant present iff type is Lance". -/
theorem c9_counterexample :
    (Piece.new PieceType.Lance Color.White).piece_type = PieceType.Lance ∧
    (Piece.new PieceType.Lance Color.White).variant = none ∧
    ¬ piece_variant_invariant (Piece.new PieceType.Lance Color.White) := by
  refine ⟨rfl, rfl, ?_⟩
  intro h
  simp [piece_variant_invariant, Piece.new] at h

/-- C9 as amended: `Piece::lance` always satisfies the invariant;
`Piece::new(t, c)` satisfies it exactly when `t` is not a Lance; and
`apply_move` places `placed_piece` on the destination, which satisfies
the invariant whenever the moving piece does and the promotion target is
not Lance (a promotion to Lance places a variant-less lance). -/
theorem c9_variant_invariant_amended :
    (∀ c v, piece_variant_invariant (Piece.lance c v)) ∧
    (∀ t c, piece_variant_invariant (Piece.new t c) ↔ t ≠ PieceType.Lance) ∧
    (∀ (b : Board) (mv : Move),
      get_piece_at (apply_move b mv) mv.to_sq = some (placed_piece mv)) ∧
    (∀ mv : Move, piece_variant_invariant mv.piece →
      mv.promotion ≠ some PieceType.Lance → piece_variant_invariant (placed_piece mv)) := by
  refine ⟨?_, ?_, ?_, ?_⟩
  · intro c v
    simp [piece_variant_invariant, Piece.lance]
  · intro t c
    cases t <;> simp [piece_variant_invariant, Piece.new]
  · intro b mv
    exact alLookup_insert_self _ _ _
  · intro mv hinv hnl
    cases hpr : mv.promotion with
    | none => simpa [placed_piece, hpr] using hinv
    | some t =>
      have ht : t ≠ PieceType.Lance := by
        intro he
        exact hnl (he ▸ hpr)
      simp only [placed_piece, hpr]
      cases t <;> simp_all [piece_variant_invariant, Piece.new]

/-- Witness for C9 (amended): the last conjunct applied to a concrete
queen promotion. -/
theorem c9_variant_invariant_amended_witness :
    piece_variant_invariant
      (Move.new (Piece.new PieceType.Pawn Color.White) ⟨0, -3⟩ ⟨0, -4⟩
        |>.with_promotion PieceType.Queen).piece ∧
    ((Move.new (Piece.new PieceType.Pawn Color.White) ⟨0, -3⟩ ⟨0, -4⟩
        |>.with_promotion PieceType.Queen).promotion ≠ some PieceType.Lance) ∧
    piece_variant_invariant
      (placed_piece (Move.new (Piece.new PieceType.Pawn Color.White) ⟨0, -3⟩ ⟨0, -4⟩
        |>.with_promotion PieceType.Queen)) := by
  have h1 : piece_variant_invariant
      (Move.new (Piece.new PieceType.Pawn Color.White) ⟨0, -3⟩ ⟨0, -4⟩
        |>.with_promotion PieceType.Queen).piece := by
    simp [piece_variant_invariant, Move.new, Move.with_promotion, Piece.new]
  have h2 : (Move.new (Piece.new PieceType.Pawn Color.White) ⟨0, -3⟩ ⟨0, -4⟩
      |>.with_promotion PieceType.Queen).promotion ≠ some PieceType.Lance := by
    simp [Move.new, Move.with_promotion]
  exact ⟨h1, h2, c9_variant_invariant_amended.2.2.2 _ h1 h2⟩

-- ============================================================================
-- C10: the directions table (corrected)
-- ============================================================================

/-- Counterexample to C10 as stated: `directions` of a King is the full
six-direction set, not the empty set. -/
theorem c10_counterexample :
    (Piece.new PieceType.King Color.White).directions = Direction.all ∧
    (Piece.new PieceType.King Color.White).directions ≠ ([] : List Direction) := by
  exact ⟨rfl, by decide⟩

/-- C10 as amended: `directions` is empty for Pawn and Knight, the full
six-direction set for King and Queen, the four diagonals for Chariot,
`lance_a` for a Lance of variant A, and `lance_b` for a Lance of variant
B — as well as for a Lance whose variant field is missing. -/
theorem c10_directions_table :
    (∀ c, (Piece.new PieceType.Pawn c).directions = []) ∧
    (∀ c, (Piece.new PieceType.Knight c).directions = []) ∧
    (∀ c, (Piece.new PieceType.King c).directions = Direction.all) ∧
    (∀ c, (Piece.new PieceType.Queen c).directions = Direction.all) ∧
    (∀ c, (Piece.new PieceType.Chariot c).directions = Direction.diagonals) ∧
    (∀ c, (Piece.lance c LanceVariant.A).directions = Direction.lance_a) ∧
    (∀ c, (Piece.lance c LanceVariant.B).directions = Direction.lance_b) ∧
    (∀ c, (Piece.new PieceType.Lance c).directions = Direction.lance_b) := by
  refine ⟨?_, ?_, ?_, ?_, ?_, ?_, ?_, ?_⟩ <;> intro c <;> rfl

-- ============================================================================
-- C6: make_move drops the promotion (code bug)
-- ============================================================================

/-- C6 (code bug): in `c6_state` the pawn move (0,-3) → (0,-4) to the
promotion rank validates (the legal list offers it as a promotion move),
yet `make_move` — which builds its move with `promotion: None` per the
source's TODO — leaves a White *Pawn* on the promotion rank instead of a
promoted piece. -/
theorem c6_promotion_dropped :
    (validate_move c6_state.board ⟨0, -3⟩ ⟨0, -4⟩ c6_state.turn).legal = true ∧
    ((Move.new (Piece.new PieceType.Pawn Color.White) ⟨0, -3⟩ ⟨0, -4⟩).with_promotion
        PieceType.Queen ∈
      generate_legal_moves c6_state.board (Piece.new PieceType.Pawn Color.White) ⟨0, -3⟩) ∧
    (make_move c6_state ⟨0, -3⟩ ⟨0, -4⟩).map (fun s2 => get_piece_at s2.board ⟨0, -4⟩)
      = some (some (Piece.new PieceType.Pawn Color.White)) := by
  decide

-- ============================================================================
-- Lemmas: canonical boards and the position enumeration
-- ============================================================================

theorem mem_coordSpan {x : Int} : x ∈ coordSpan ↔ -4 ≤ x ∧ x ≤ 4 := by
  simp [coordSpan]
  omega

theorem mem_get_all_cells {c : HexCoord} : c ∈ get_all_cells ↔ is_valid_cell c = true := by
  constructor
  · intro h
    simp only [get_all_cells, List.mem_flatMap, List.mem_filterMap] at h
    obtain ⟨q, _, r, _, h⟩ := h
    by_cases hv : is_valid_cell ⟨q, r⟩
    · simp [hv] at h
      rw [← h]
      exact hv
    · simp [hv] at h
  · intro h
    have hq : c.q ∈ coordSpan := by
      rw [mem_coordSpan]
      simp [is_valid_cell] at h
      omega
    have hr : c.r ∈ coordSpan := by
      rw [mem_coordSpan]
      simp [is_valid_cell] at h
      omega
    simp only [get_all_cells, List.mem_flatMap, List.mem_filterMap]
    exact ⟨c.q, hq, c.r, hr, by cases c; simp [h]⟩

theorem mem_canon_board {b : Board} {c : HexCoord} {p : Piece} :
    (c, p) ∈ canon_board b ↔ is_valid_cell c = true ∧ get_piece_at b c = some p := by
  constructor
  · intro h
    simp only [canon_board, List.mem_filterMap] at h
    obtain ⟨c2, hc2, h⟩ := h
    cases hl : get_piece_at b c2 with
    | none => rw [hl] at h; simp at h
    | some p2 =>
      rw [hl] at h
      simp at h
      obtain ⟨h1, h2⟩ := h
      subst h1
      subst h2
      exact ⟨mem_get_all_cells.1 hc2, hl⟩
  · intro ⟨hv, hl⟩
    simp only [canon_board, List.mem_filterMap]
    exact ⟨c, mem_get_all_cells.2 hv, by simp [hl]⟩

/-- Boards with equal canonical forms look the same at every valid cell. -/
theorem canon_eq_lookup {b1 b2 : Board} (h : canon_board b1 = canon_board b2)
    {c : HexCoord} (hv : is_valid_cell c = true) :
    get_piece_at b1 c = get_piece_at b2 c := by
  cases h1 : get_piece_at b1 c with
  | some p =>
    have hm : (c, p) ∈ canon_board b2 := h ▸ mem_canon_board.2 ⟨hv, h1⟩
    exact ((mem_canon_board.1 hm).2).symm
  | none =>
    cases h2 : get_piece_at b2 c with
    | none => rfl
    | some p =>
      have hm : (c, p) ∈ canon_board b1 := h ▸ mem_canon_board.2 ⟨hv, h2⟩
      rw [(mem_canon_board.1 hm).2] at h1
      cases h1

theorem lookup_mk_two_kings_self_w {wk bk : HexCoord} (h : wk ≠ bk) :
    get_piece_at (mk_two_kings wk bk) wk = some (Piece.new PieceType.King Color.White) := by
  unfold mk_two_kings
  show alLookup _ _ = _
  rw [alLookup_insert_ne _ _ h, alLookup_insert_self]

theorem lookup_mk_two_kings_self_b {wk bk : HexCoord} :
    get_piece_at (mk_two_kings wk bk) bk = some (Piece.new PieceType.King Color.Black) := by
  unfold mk_two_kings
  exact alLookup_insert_self _ _ _

theorem lookup_mk_two_kings_other {wk bk c : HexCoord} (h1 : c ≠ wk) (h2 : c ≠ bk) :
    get_piece_at (mk_two_kings wk bk) c = none := by
  unfold mk_two_kings
  show alLookup _ _ = _
  rw [alLookup_insert_ne _ _ h2, alLookup_insert_ne _ _ h1]
  rfl

/-- Shape of every enumerated position: two non-adjacent kings on
distinct valid cells, plus — when the configuration has exactly one
stronger-side piece — that piece, always White, on a third cell. -/
theorem gen_positions_shape {config : TablebaseConfig} {pos : Board × Color}
    (h : pos ∈ generate_all_positions config) :
    ∃ wk bk, wk ∈ get_all_cells ∧ bk ∈ get_all_cells ∧ wk ≠ bk ∧
      ((config.stronger_side = [] ∧ pos.1 = mk_two_kings wk bk) ∨
       (∃ pt pp piece, config.stronger_side = [pt] ∧
         pp ∈ get_all_cells ∧ pp ≠ wk ∧ pp ≠ bk ∧
         ((pt = PieceType.Lance ∧
            (piece = Piece.lance Color.White LanceVariant.A ∨
             piece = Piece.lance Color.White LanceVariant.B)) ∨
          (pt ≠ PieceType.Lance ∧ piece = Piece.new pt Color.White)) ∧
         pos.1 = alInsert (mk_two_kings wk bk) pp piece)) := by
  simp only [generate_all_positions, List.mem_flatMap] at h
  obtain ⟨wk, hwk, bk, hbk, h⟩ := h
  by_cases heq : wk = bk
  · simp [heq] at h
  by_cases hcl : kings_too_close wk bk
  · simp [heq, hcl] at h
  rw [if_neg heq, if_neg hcl] at h
  refine ⟨wk, bk, hwk, hbk, heq, ?_⟩
  rcases hss : config.stronger_side with _ | ⟨pt, rest⟩
  · rw [hss] at h
    simp only [List.mem_filterMap] at h
    obtain ⟨stm, _, h⟩ := h
    split at h
    · cases h
    · refine Or.inl ⟨rfl, ?_⟩
      have hx := Option.some.inj h
      rw [← hx]
  rcases rest with _ | ⟨pt2, rest2⟩
  · rw [hss] at h
    simp only [List.mem_flatMap] at h
    obtain ⟨pp, hpp, stm, _, h⟩ := h
    simp only [List.mem_filterMap] at h
    obtain ⟨variant, hvar, h⟩ := h
    have hppm : pp ∈ get_all_cells ∧ pp ≠ wk ∧ pp ≠ bk := by
      simp only [List.mem_filter] at hpp
      refine ⟨hpp.1, ?_, ?_⟩ <;> have := hpp.2 <;> simp at this <;> tauto
    by_cases hl : pt = PieceType.Lance
    · simp [lance_variants_for, hl] at hvar
      rcases hvar with hv | hv
      · subst hv
        split at h
        · cases h
        · have hx := Option.some.inj h
          exact Or.inr ⟨pt, pp, Piece.lance Color.White LanceVariant.A, rfl,
            hppm.1, hppm.2.1, hppm.2.2, Or.inl ⟨hl, Or.inl rfl⟩, by rw [← hx]⟩
      · subst hv
        split at h
        · cases h
        · have hx := Option.some.inj h
          exact Or.inr ⟨pt, pp, Piece.lance Color.White LanceVariant.B, rfl,
            hppm.1, hppm.2.1, hppm.2.2, Or.inl ⟨hl, Or.inr rfl⟩, by rw [← hx]⟩
    · simp [lance_variants_for, hl] at hvar
      subst hvar
      split at h
      · cases h
      · have hx := Option.some.inj h
        exact Or.inr ⟨pt, pp, Piece.new pt Color.White, rfl,
          hppm.1, hppm.2.1, hppm.2.2, Or.inr ⟨hl, rfl⟩, by rw [← hx]⟩
  · rw [hss] at h
    simp at h

/-- Every piece of an enumerated position is White or a king (the
enumeration places the stronger side's piece only as White). -/
theorem gen_positions_pieces_white {config : TablebaseConfig} {pos : Board × Color}
    (h : pos ∈ generate_all_positions config) :
    ∀ e ∈ pos.1, e.2.color = Color.White ∨ e.2.piece_type = PieceType.King := by
  obtain ⟨wk, bk, _, _, _, hsh⟩ := gen_positions_shape h
  intro e he
  rcases hsh with ⟨_, hb⟩ | ⟨pt, pp, piece, _, _, _, _, hpc, hb⟩
  · rw [hb] at he
    rcases mem_of_mem_alInsert he with h1 | h1
    · right; rw [h1]; rfl
    · rcases mem_of_mem_alInsert h1 with h2 | h2
      · right; rw [h2]; rfl
      · cases h2
  · rw [hb] at he
    rcases mem_of_mem_alInsert he with h1 | h1
    · left
      rw [h1]
      rcases hpc with ⟨_, hA | hB⟩ | ⟨_, hN⟩
      · rw [hA]; rfl
      · rw [hB]; rfl
      · rw [hN]; rfl
    · rcases mem_of_mem_alInsert h1 with h2 | h2
      · right; rw [h2]; rfl
      · rcases mem_of_mem_alInsert h2 with h3 | h3
        · right; rw [h3]; rfl
        · cases h3

theorem pin_lookup_kvk {b : Board} {wk bk : HexCoord} {c : HexCoord} {q : Piece}
    (hb : b = mk_two_kings wk bk) (hne : wk ≠ bk)
    (hl : get_piece_at b c = some q) :
    (c = wk ∧ q = Piece.new PieceType.King Color.White) ∨
    (c = bk ∧ q = Piece.new PieceType.King Color.Black) := by
  subst hb
  by_cases e1 : c = wk
  · subst e1
    rw [lookup_mk_two_kings_self_w hne] at hl
    exact Or.inl ⟨rfl, (Option.some.inj hl).symm⟩
  · by_cases e2 : c = bk
    · subst e2
      rw [lookup_mk_two_kings_self_b] at hl
      exact Or.inr ⟨rfl, (Option.some.inj hl).symm⟩
    · rw [lookup_mk_two_kings_other e1 e2] at hl
      cases hl

theorem pin_lookup_piece {b : Board} {wk bk pp : HexCoord} {piece : Piece}
    {c : HexCoord} {q : Piece}
    (hb : b = alInsert (mk_two_kings wk bk) pp piece) (hne : wk ≠ bk)
    (hpw : pp ≠ wk) (hpb : pp ≠ bk)
    (hl : get_piece_at b c = some q) :
    (c = pp ∧ q = piece) ∨
    (c = wk ∧ q = Piece.new PieceType.King Color.White) ∨
    (c = bk ∧ q = Piece.new PieceType.King Color.Black) := by
  subst hb
  by_cases e0 : c = pp
  · subst e0
    unfold get_piece_at at hl
    rw [alLookup_insert_self] at hl
    exact Or.inl ⟨rfl, (Option.some.inj hl).symm⟩
  · unfold get_piece_at at hl
    rw [alLookup_insert_ne _ _ e0] at hl
    exact Or.inr (pin_lookup_kvk rfl hne hl)

/-- Distinct enumerated positions of a configuration without a King on
the stronger side carry distinct tablebase keys. -/
theorem gen_positions_key_inj {config : TablebaseConfig}
    (hcfg : PieceType.King ∉ config.stronger_side) :
    PositionsKeyInjective (generate_all_positions config) := by
  intro p1 h1 p2 h2 hk
  obtain ⟨wk1, bk1, hwk1, hbk1, hne1, hsh1⟩ := gen_positions_shape h1
  obtain ⟨wk2, bk2, hwk2, hbk2, hne2, hsh2⟩ := gen_positions_shape h2
  simp only [get_tablebase_key, Prod.mk.injEq] at hk
  have hside : p1.2 = p2.2 := hk.2
  have hcanon : canon_board p1.1 = canon_board p2.1 := hk.1
  have htrans : ∀ c : HexCoord, c ∈ get_all_cells →
      get_piece_at p1.1 c = get_piece_at p2.1 c := by
    intro c hc
    exact canon_eq_lookup hcanon (mem_get_all_cells.1 hc)
  rcases hsh1 with ⟨hss1, hb1⟩ | ⟨pt1, pp1, piece1, hss1, hpp1, hpw1, hpb1, hpc1, hb1⟩ <;>
    rcases hsh2 with ⟨hss2, hb2⟩ | ⟨pt2, pp2, piece2, hss2, hpp2, hpw2, hpb2, hpc2, hb2⟩
  · -- both KvK
    have hlw : get_piece_at p2.1 wk1 = some (Piece.new PieceType.King Color.White) := by
      rw [← htrans wk1 hwk1, hb1]
      exact lookup_mk_two_kings_self_w hne1
    have hlb : get_piece_at p2.1 bk1 = some (Piece.new PieceType.King Color.Black) := by
      rw [← htrans bk1 hbk1, hb1]
      exact lookup_mk_two_kings_self_b
    rcases pin_lookup_kvk hb2 hne2 hlw with ⟨hw, _⟩ | ⟨_, hq⟩
    · rcases pin_lookup_kvk hb2 hne2 hlb with ⟨hb', hq⟩ | ⟨hb', _⟩
      · simp [Piece.new] at hq
      · refine Prod.ext_iff.2 ⟨?_, hside⟩
        rw [hb1, hb2, hw, hb']
    · simp [Piece.new] at hq
  · rw [hss1] at hss2; cases hss2
  · rw [hss2] at hss1; cases hss1
  · -- both one extra piece
    rw [hss1] at hss2
    have hpt : pt1 = pt2 := by injection hss2
    have hptK1 : piece1.piece_type ≠ PieceType.King := by
      rcases hpc1 with ⟨_, hA | hB⟩ | ⟨_, hN⟩
      · rw [hA]; simp [Piece.lance]
      · rw [hB]; simp [Piece.lance]
      · rw [hN]
        have : pt1 ≠ PieceType.King := by
          intro he
          apply hcfg
          rw [hss1, he]
          exact List.mem_singleton.2 rfl
        simpa [Piece.new] using this
    have hptK2 : piece2.piece_type ≠ PieceType.King := by
      rcases hpc2 with ⟨_, hA | hB⟩ | ⟨_, hN⟩
      · rw [hA]; simp [Piece.lance]
      · rw [hB]; simp [Piece.lance]
      · rw [hN]
        have : pt2 ≠ PieceType.King := by
          intro he
          apply hcfg
          rw [hss1, hpt, he]
          exact List.mem_singleton.2 rfl
        simpa [Piece.new] using this
    have hlw : get_piece_at p2.1 wk1 = some (Piece.new PieceType.King Color.White) := by
      rw [← htrans wk1 hwk1, hb1]
      unfold get_piece_at
      rw [alLookup_insert_ne _ _ (fun hh => hpw1 hh.symm)]
      exact lookup_mk_two_kings_self_w hne1
    have hlb : get_piece_at p2.1 bk1 = some (Piece.new PieceType.King Color.Black) := by
      rw [← htrans bk1 hbk1, hb1]
      unfold get_piece_at
      rw [alLookup_insert_ne _ _ (fun hh => hpb1 hh.symm)]
      exact lookup_mk_two_kings_self_b
    have hlp : get_piece_at p2.1 pp1 = some piece1 := by
      rw [← htrans pp1 hpp1, hb1]
      unfold get_piece_at
      rw [alLookup_insert_self]
    have hwk : wk1 = wk2 := by
      rcases pin_lookup_piece hb2 hne2 hpw2 hpb2 hlw with ⟨_, hq⟩ | ⟨hw, _⟩ | ⟨_, hq⟩
      · exact absurd (by rw [← hq]; rfl) hptK2
      · exact hw
      · simp [Piece.new] at hq
    have hbk : bk1 = bk2 := by
      rcases pin_lookup_piece hb2 hne2 hpw2 hpb2 hlb with ⟨_, hq⟩ | ⟨_, hq⟩ | ⟨hb', _⟩
      · exact absurd (by rw [← hq]; rfl) hptK2
      · simp [Piece.new] at hq
      · exact hb'
    have hpp : pp1 = pp2 ∧ piece1 = piece2 := by
      rcases pin_lookup_piece hb2 hne2 hpw2 hpb2 hlp with ⟨hp, hq⟩ | ⟨_, hq⟩ | ⟨_, hq⟩
      · exact ⟨hp, hq⟩
      · exact absurd (by rw [hq]; rfl) hptK1
      · exact absurd (by rw [hq]; rfl) hptK1
    refine Prod.ext_iff.2 ⟨?_, hside⟩
    rw [hb1, hb2, hwk, hbk, hpp.1, hpp.2]

-- ============================================================================
-- Lemmas: phase 1 of tablebase generation
-- ============================================================================

theorem get_terminal_outcome_not_win {b : Board} {stm : Color} {w : WDLOutcome × Int}
    (h : get_terminal_outcome b stm = some w) : w.1 ≠ WDLOutcome.Win := by
  unfold get_terminal_outcome at h
  split at h
  · split at h
    · rw [← Option.some.inj h]; simp
    · rw [← Option.some.inj h]; simp
  · cases h

theorem tb_phase1_go (rest : List (Board × Color)) :
    ∀ (processed : List (Board × Color)) (st : TBGenState),
    PositionsKeyInjective (processed ++ rest) →
    (∀ k ∈ st.unknown, alLookup st.entries k = none) →
    st.unknown.Nodup →
    (∀ k e, alLookup st.entries k = some e →
      e.wdl ≠ WDLOutcome.Win ∧
      ∃ pos ∈ processed, get_tablebase_key pos.1 pos.2 = k ∧
        get_terminal_outcome pos.1 pos.2 = some (e.wdl, e.dtm)) →
    (∀ k ∈ st.unknown, ∃ pos ∈ processed, get_tablebase_key pos.1 pos.2 = k ∧
      get_terminal_outcome pos.1 pos.2 = none) →
    (∀ k, (¬ alLookup st.entries k = none ∨ k ∈ st.unknown) ↔
      ∃ pos ∈ processed, get_tablebase_key pos.1 pos.2 = k) →
    ((∀ k ∈ (rest.foldl tb_phase1_step st).unknown,
        alLookup (rest.foldl tb_phase1_step st).entries k = none) ∧
     (rest.foldl tb_phase1_step st).unknown.Nodup ∧
     (∀ k e, alLookup (rest.foldl tb_phase1_step st).entries k = some e →
       e.wdl ≠ WDLOutcome.Win ∧
       ∃ pos ∈ processed ++ rest, get_tablebase_key pos.1 pos.2 = k ∧
         get_terminal_outcome pos.1 pos.2 = some (e.wdl, e.dtm)) ∧
     (∀ k ∈ (rest.foldl tb_phase1_step st).unknown,
       ∃ pos ∈ processed ++ rest, get_tablebase_key pos.1 pos.2 = k ∧
         get_terminal_outcome pos.1 pos.2 = none) ∧
     (∀ k, (¬ alLookup (rest.foldl tb_phase1_step st).entries k = none ∨
        k ∈ (rest.foldl tb_phase1_step st).unknown) ↔
       ∃ pos ∈ processed ++ rest, get_tablebase_key pos.1 pos.2 = k)) := by
  induction rest with
  | nil =>
    intro processed st _ h1 h2 h3 h4 h5
    rw [List.foldl_nil, List.append_nil]
    exact ⟨h1, h2, h3, h4, h5⟩
  | cons pos rest ih =>
    intro processed st hinj h1 h2 h3 h4 h5
    have hassoc : processed ++ pos :: rest = (processed ++ [pos]) ++ rest := by
      simp
    have hposm : pos ∈ (processed ++ [pos]) ++ rest := by
      simp
    have hprocm : ∀ p ∈ processed, p ∈ (processed ++ [pos]) ++ rest := by
      intro p hp
      simp [hp]
    rw [List.foldl_cons, hassoc]
    rw [hassoc] at hinj
    cases hterm : get_terminal_outcome pos.1 pos.2 with
    | some wd =>
      have hstep : tb_phase1_step st pos =
          ⟨alInsert st.entries (get_tablebase_key pos.1 pos.2) ⟨wd.1, wd.2, none⟩,
           st.unknown, alInsert st.pos_map (get_tablebase_key pos.1 pos.2) pos⟩ := by
        unfold tb_phase1_step
        rw [hterm]
      have hknotu : get_tablebase_key pos.1 pos.2 ∉ st.unknown := by
        intro hku
        obtain ⟨pos0, hpos0, hkey0, hterm0⟩ := h4 _ hku
        have := hinj pos0 (hprocm pos0 hpos0) pos hposm hkey0
        rw [this, hterm] at hterm0
        cases hterm0
      rw [hstep]
      refine ih (processed ++ [pos]) _ hinj ?_ h2 ?_ ?_ ?_
      · intro k hk
        have hne : k ≠ get_tablebase_key pos.1 pos.2 := by
          intro hh
          rw [hh] at hk
          exact hknotu hk
        show alLookup (alInsert st.entries (get_tablebase_key pos.1 pos.2)
          ⟨wd.1, wd.2, none⟩) k = none
        rw [alLookup_insert_ne _ _ hne]
        exact h1 k hk
      · intro k e hk
        show _ ≠ _ ∧ _
        by_cases hkk : k = get_tablebase_key pos.1 pos.2
        · subst hkk
          rw [show alLookup (⟨alInsert st.entries (get_tablebase_key pos.1 pos.2)
              ⟨wd.1, wd.2, none⟩, st.unknown,
              alInsert st.pos_map (get_tablebase_key pos.1 pos.2) pos⟩ :
              TBGenState).entries (get_tablebase_key pos.1 pos.2) =
              some ⟨wd.1, wd.2, none⟩ from alLookup_insert_self _ _ _] at hk
          have he := (Option.some.inj hk).symm
          subst he
          refine ⟨get_terminal_outcome_not_win hterm, pos, by simp, rfl, ?_⟩
          simpa using hterm
        · rw [show alLookup (⟨alInsert st.entries (get_tablebase_key pos.1 pos.2)
              ⟨wd.1, wd.2, none⟩, st.unknown,
              alInsert st.pos_map (get_tablebase_key pos.1 pos.2) pos⟩ :
              TBGenState).entries k = alLookup st.entries k from
              alLookup_insert_ne _ _ hkk] at hk
          obtain ⟨hw, pos0, hpos0, hrest⟩ := h3 k e hk
          exact ⟨hw, pos0, List.mem_append_left _ hpos0, hrest⟩
      · intro k hk
        obtain ⟨pos0, hpos0, hrest⟩ := h4 k hk
        exact ⟨pos0, List.mem_append_left _ hpos0, hrest⟩
      · intro k
        by_cases hkk : k = get_tablebase_key pos.1 pos.2
        · subst hkk
          constructor
          · intro
            exact ⟨pos, by simp, rfl⟩
          · intro
            left
            show ¬ alLookup (alInsert _ _ _) _ = none
            rw [alLookup_insert_self]
            simp
        · constructor
          · intro hl
            rcases hl with hl | hl
            · rw [show alLookup (⟨alInsert st.entries (get_tablebase_key pos.1 pos.2)
                  ⟨wd.1, wd.2, none⟩, st.unknown,
                  alInsert st.pos_map (get_tablebase_key pos.1 pos.2) pos⟩ :
                  TBGenState).entries k = alLookup st.entries k from
                  alLookup_insert_ne _ _ hkk] at hl
              obtain ⟨pos0, hpos0, hk0⟩ := (h5 k).1 (Or.inl hl)
              exact ⟨pos0, List.mem_append_left _ hpos0, hk0⟩
            · obtain ⟨pos0, hpos0, hk0⟩ := (h5 k).1 (Or.inr hl)
              exact ⟨pos0, List.mem_append_left _ hpos0, hk0⟩
          · intro ⟨pos0, hpos0, hk0⟩
            have hpm : pos0 ∈ processed := by
              rcases List.mem_append.1 hpos0 with hh | hh
              · exact hh
              · rw [List.mem_singleton.1 hh] at hk0
                exact absurd hk0.symm hkk
            rcases (h5 k).2 ⟨pos0, hpm, hk0⟩ with hl | hl
            · left
              show ¬ alLookup (alInsert _ _ _) _ = none
              rw [alLookup_insert_ne _ _ hkk]
              exact hl
            · exact Or.inr hl
    | none =>
      have hstep : tb_phase1_step st pos =
          ⟨st.entries,
           if get_tablebase_key pos.1 pos.2 ∈ st.unknown then st.unknown
           else st.unknown ++ [get_tablebase_key pos.1 pos.2],
           alInsert st.pos_map (get_tablebase_key pos.1 pos.2) pos⟩ := by
        unfold tb_phase1_step
        rw [hterm]
      have hknote : alLookup st.entries (get_tablebase_key pos.1 pos.2) = none := by
        cases hke : alLookup st.entries (get_tablebase_key pos.1 pos.2) with
        | none => rfl
        | some e =>
          obtain ⟨_, pos0, hpos0, hkey0, hterm0⟩ := h3 _ _ hke
          have := hinj pos0 (hprocm pos0 hpos0) pos hposm hkey0
          rw [this, hterm] at hterm0
          cases hterm0
      rw [hstep]
      have hmemnew : ∀ k, k ∈ (if get_tablebase_key pos.1 pos.2 ∈ st.unknown
          then st.unknown else st.unknown ++ [get_tablebase_key pos.1 pos.2]) ↔
          (k ∈ st.unknown ∨ k = get_tablebase_key pos.1 pos.2) := by
        intro k
        by_cases hku : get_tablebase_key pos.1 pos.2 ∈ st.unknown
        · rw [if_pos hku]
          constructor
          · exact Or.inl
          · intro hh
            rcases hh with hh | hh
            · exact hh
            · rw [hh]; exact hku
        · rw [if_neg hku]
          simp
      refine ih (processed ++ [pos]) _ hinj ?_ ?_ ?_ ?_ ?_
      · intro k hk
        rcases (hmemnew k).1 hk with hh | hh
        · exact h1 k hh
        · rw [hh]; exact hknote
      · show List.Nodup (if get_tablebase_key pos.1 pos.2 ∈ st.unknown
          then st.unknown else st.unknown ++ [get_tablebase_key pos.1 pos.2])
        by_cases hku : get_tablebase_key pos.1 pos.2 ∈ st.unknown
        · rw [if_pos hku]
          exact h2
        · rw [if_neg hku]
          rw [List.nodup_append]
          exact ⟨h2, List.nodup_singleton _, by simpa using hku⟩
      · intro k e hk
        obtain ⟨hw, pos0, hpos0, hrest⟩ := h3 k e hk
        exact ⟨hw, pos0, List.mem_append_left _ hpos0, hrest⟩
      · intro k hk
        rcases (hmemnew k).1 hk with hh | hh
        · obtain ⟨pos0, hpos0, hrest⟩ := h4 k hh
          exact ⟨pos0, List.mem_append_left _ hpos0, hrest⟩
        · exact ⟨pos, by simp, hh.symm, hterm⟩
      · intro k
        constructor
        · intro hl
          rcases hl with hl | hl
          · obtain ⟨pos0, hpos0, hk0⟩ := (h5 k).1 (Or.inl hl)
            exact ⟨pos0, List.mem_append_left _ hpos0, hk0⟩
          · rcases (hmemnew k).1 hl with hh | hh
            · obtain ⟨pos0, hpos0, hk0⟩ := (h5 k).1 (Or.inr hh)
              exact ⟨pos0, List.mem_append_left _ hpos0, hk0⟩
            · exact ⟨pos, by simp, hh.symm⟩
        · intro ⟨pos0, hpos0, hk0⟩
          rcases List.mem_append.1 hpos0 with hh | hh
          · rcases (h5 k).2 ⟨pos0, hh, hk0⟩ with hl | hl
            · exact Or.inl hl
            · exact Or.inr ((hmemnew k).2 (Or.inl hl))
          · rw [List.mem_singleton.1 hh] at hk0
            exact Or.inr ((hmemnew k).2 (Or.inr hk0.symm))

/-- Invariants established by phase 1 (for a key-injective enumeration):
unknown keys have no entry and are duplicate-free, no entry is a Win, and
the entries' domain together with the unknown keys is exactly the set of
enumerated keys. -/
theorem tb_phase1_inv (positions : List (Board × Color))
    (hinj : PositionsKeyInjective positions) :
    (∀ k ∈ (tb_phase1 positions).unknown,
       alLookup (tb_phase1 positions).entries k = none) ∧
    (tb_phase1 positions).unknown.Nodup ∧
    (∀ k e, alLookup (tb_phase1 positions).entries k = some e →
      e.wdl ≠ WDLOutcome.Win ∧
      ∃ pos ∈ positions, get_tablebase_key pos.1 pos.2 = k ∧
        get_terminal_outcome pos.1 pos.2 = some (e.wdl, e.dtm)) ∧
    (∀ k ∈ (tb_phase1 positions).unknown,
      ∃ pos ∈ positions, get_tablebase_key pos.1 pos.2 = k ∧
        get_terminal_outcome pos.1 pos.2 = none) ∧
    (∀ k, (¬ alLookup (tb_phase1 positions).entries k = none ∨
       k ∈ (tb_phase1 positions).unknown) ↔
      ∃ pos ∈ positions, get_tablebase_key pos.1 pos.2 = k) := by
  have h := tb_phase1_go positions [] ⟨[], [], []⟩ (by simpa using hinj)
    (by intro k hk; cases hk) (List.nodup_nil)
    (by intro k e hk; cases hk) (by intro k hk; cases hk)
    (by intro k; constructor
        · intro hl
          rcases hl with hl | hl
          · exact absurd rfl hl
          · cases hl
        · intro ⟨pos0, hpos0, _⟩
          cases hpos0)
  simpa [tb_phase1] using h

-- ============================================================================
-- Lemmas: phase 2 of tablebase generation (retrograde passes)
-- ============================================================================

/-- A best-move candidate coming out of one scan step is either the old
candidate or the move just scanned, backed by a Loss entry one step
closer to mate. -/
theorem tb_scan_step_best (entries : TBEntries) (board : Board) (stm : Color)
    (s : TBScanState) (mv : Move) (bi : SerializedMove × Int)
    (h : (tb_scan_step entries board stm s mv).best_move_info = some bi) :
    s.best_move_info = some bi ∨
      (bi.1 = SerializedMove.from_move mv ∧
       ∃ e2, alLookup entries (get_tablebase_key (apply_move board mv) stm.opposite)
           = some e2 ∧ e2.wdl = WDLOutcome.Loss ∧ e2.dtm = bi.2 - 1) := by
  unfold tb_scan_step at h
  split at h
  · exact Or.inl h
  · rename_i entry hlk
    split at h
    · have h2 : (if (match s.best_move_info with
          | none => true
          | some bi0 => decide (entry.dtm + 1 < bi0.2)) = true then
          some (SerializedMove.from_move mv, entry.dtm + 1)
          else s.best_move_info) = some bi := h
      split at h2
      · have hb := Option.some.inj h2
        rename_i hwdl _
        refine Or.inr ⟨by rw [← hb], entry, hlk, hwdl, ?_⟩
        rw [← hb]
        omega
      · exact Or.inl h2
    · exact Or.inl h
    · exact Or.inl h

/-- A best-move candidate coming out of the whole scan is witnessed: its
serialised move is a legal move whose successor entry is a Loss one step
closer to mate (provided the candidate the scan started from was). -/
theorem tb_scan_moves_best (entries : TBEntries) (board : Board) (stm : Color) :
    ∀ (M : List Move) (s : TBScanState) (W : List Move), (∀ m ∈ M, m ∈ W) →
    (∀ bi, s.best_move_info = some bi → BestWitness entries board stm W bi) →
    ∀ bi, (tb_scan_moves entries board stm M s).best_move_info = some bi →
      BestWitness entries board stm W bi := by
  intro M
  induction M with
  | nil =>
    intro s W _ hs bi hbi
    exact hs bi hbi
  | cons mv rest ih =>
    intro s W hsub hs bi hbi
    rw [tb_scan_moves, List.foldl_cons] at hbi
    refine ih _ W (fun m hm => hsub m (List.mem_cons_of_mem _ hm)) ?_ bi hbi
    intro bi2 hbi2
    rcases tb_scan_step_best entries board stm s mv bi2 hbi2 with
      hh | ⟨hb1, e2, he2, hwl, hdtm⟩
    · exact hs bi2 hh
    · exact ⟨mv, hsub mv (List.mem_cons_self _ _), hb1.symm, e2, he2, hwl, hdtm⟩

/-- Inserting an entry at a key absent from the entries preserves the
linking invariant, provided the new entry is itself linked when it is a
Win. -/
theorem winlinked_insert_fresh {entries : TBEntries} {pm : TBPosMap} {k : TBKey}
    {e : TablebaseEntry} (hfresh : alLookup entries k = none)
    (hlinked : WinEntryLinked entries pm)
    (hwin : e.wdl = WDLOutcome.Win →
      ∃ pos, alLookup pm k = some pos ∧
      ∃ sm, e.best_move = some sm ∧
      ∃ mv, mv ∈ generate_all_legal_moves pos.1 pos.2 ∧
        SerializedMove.from_move mv = sm ∧
        ∃ e2, alLookup entries
            (get_tablebase_key (apply_move pos.1 mv) pos.2.opposite) = some e2 ∧
          e2.wdl = WDLOutcome.Loss ∧ e2.dtm = e.dtm - 1) :
    WinEntryLinked (alInsert entries k e) pm := by
  intro k1 e1 hk1 hw1
  by_cases hkk : k1 = k
  · rw [hkk] at hk1 ⊢
    rw [alLookup_insert_self] at hk1
    have he := Option.some.inj hk1
    rw [← he] at hw1 ⊢
    obtain ⟨pos, hpm, sm, hsm, mv, hmv, hms, e2, he2, hwl, hdtm⟩ := hwin hw1
    have hsk : get_tablebase_key (apply_move pos.1 mv) pos.2.opposite ≠ k := by
      intro hh
      rw [hh, hfresh] at he2
      cases he2
    refine ⟨pos, hpm, sm, hsm, mv, hmv, hms, e2, ?_, hwl, hdtm⟩
    rw [alLookup_insert_ne _ _ hsk]
    exact he2
  · rw [alLookup_insert_ne _ _ hkk] at hk1
    obtain ⟨pos, hpm, sm, hsm, mv, hmv, hms, e2, he2, hwl, hdtm⟩ :=
      hlinked k1 e1 hk1 hw1
    have hsk : get_tablebase_key (apply_move pos.1 mv) pos.2.opposite ≠ k := by
      intro hh
      rw [hh, hfresh] at he2
      cases he2
    refine ⟨pos, hpm, sm, hsm, mv, hmv, hms, e2, ?_, hwl, hdtm⟩
    rw [alLookup_insert_ne _ _ hsk]
    exact he2

/-- Inserting a binding extends the combined lookup/list domain by its
key. -/
theorem alInsert_domain_cons [DecidableEq κ] (l : List (κ × ν)) (k0 k : κ)
    (v : ν) (rest : List κ) :
    (¬ alLookup (alInsert l k0 v) k = none ∨ k ∈ rest) ↔
    (¬ alLookup l k = none ∨ k ∈ k0 :: rest) := by
  by_cases hkk : k = k0
  · rw [hkk, alLookup_insert_self]
    constructor
    · intro _
      exact Or.inr (List.mem_cons_self _ _)
    · intro _
      exact Or.inl (by simp)
  · rw [alLookup_insert_ne _ _ hkk]
    constructor
    · intro hl
      rcases hl with hl | hl
      · exact Or.inl hl
      · exact Or.inr (List.mem_cons_of_mem _ hl)
    · intro hl
      rcases hl with hl | hl
      · exact Or.inl hl
      · rcases List.mem_cons.1 hl with hh | hh
        · exact absurd hh hkk
        · exact Or.inr hh

/-- A pass that leaves the head key unresolved re-emits it in front of
the remaining unknowns. -/
theorem tbinv_skip {pm : TBPosMap} {entries : TBEntries} {k0 : TBKey}
    {rest : List TBKey} {r : TBEntries × List TBKey}
    (h : TBInv pm entries rest r) (hk0 : alLookup entries k0 = none)
    (hk0nr : k0 ∉ rest) :
    TBInv pm entries (k0 :: rest) (r.1, k0 :: r.2) := by
  obtain ⟨h1, h2, h3, h4⟩ := h
  have hk0r : alLookup r.1 k0 = none := by
    by_contra hc
    rcases (h4 k0).1 (Or.inl hc) with hl | hl
    · exact hl hk0
    · exact hk0nr hl
  have hk0nr2 : k0 ∉ r.2 := by
    intro hc
    rcases (h4 k0).1 (Or.inr hc) with hl | hl
    · exact hl hk0
    · exact hk0nr hl
  refine ⟨?_, List.nodup_cons.2 ⟨hk0nr2, h2⟩, h3, ?_⟩
  · intro k hk
    rcases List.mem_cons.1 hk with hh | hh
    · rw [hh]
      exact hk0r
    · exact h1 k hh
  · intro k
    constructor
    · intro hl
      rcases hl with hl | hl
      · rcases (h4 k).1 (Or.inl hl) with hh | hh
        · exact Or.inl hh
        · exact Or.inr (List.mem_cons_of_mem _ hh)
      · rcases List.mem_cons.1 hl with hh | hh
        · rw [hh]
          exact Or.inr (List.mem_cons_self _ _)
        · rcases (h4 k).1 (Or.inr hh) with hh2 | hh2
          · exact Or.inl hh2
          · exact Or.inr (List.mem_cons_of_mem _ hh2)
    · intro hl
      rcases hl with hl | hl
      · rcases (h4 k).2 (Or.inl hl) with hh | hh
        · exact Or.inl hh
        · exact Or.inr (List.mem_cons_of_mem _ hh)
      · rcases List.mem_cons.1 hl with hh | hh
        · rw [hh]
          exact Or.inr (List.mem_cons_self _ _)
        · rcases (h4 k).2 (Or.inr hh) with hh2 | hh2
          · exact Or.inl hh2
          · exact Or.inr (List.mem_cons_of_mem _ hh2)

/-- A pass step that resolves the head key by inserting its entry: the
invariant for the grown entries yields the invariant for the original
entries with the key restored to the unknowns. -/
theorem tbinv_insert {pm : TBPosMap} {entries : TBEntries} {k0 : TBKey}
    {e : TablebaseEntry} {rest : List TBKey} {r : TBEntries × List TBKey}
    (h : TBInv pm (alInsert entries k0 e) rest r) :
    TBInv pm entries (k0 :: rest) r := by
  obtain ⟨h1, h2, h3, h4⟩ := h
  refine ⟨h1, h2, h3, fun k => ?_⟩
  rw [h4 k]
  exact alInsert_domain_cons entries k0 k e rest

/-- Invariants of one retrograde pass: unknown keys stay fresh and
duplicate-free, winning entries stay linked, and the combined domain is
unchanged. -/
theorem tb_pass_inv (pm : TBPosMap) :
    ∀ (klist : List TBKey) (entries : TBEntries) (changed : Bool),
    (∀ k ∈ klist, alLookup entries k = none) → klist.Nodup →
    WinEntryLinked entries pm →
    TBInv pm entries klist
      ((tb_pass pm klist entries changed).1, (tb_pass pm klist entries changed).2.1) := by
  intro klist
  induction klist with
  | nil =>
    intro entries changed _ _ hw
    exact ⟨fun k hk => absurd hk (List.not_mem_nil k), List.nodup_nil, hw,
      fun k => Iff.rfl⟩
  | cons k0 rest ih =>
    intro entries changed hfresh hnd hw
    have hk0 : alLookup entries k0 = none := hfresh k0 (List.mem_cons_self _ _)
    have hrestf : ∀ k ∈ rest, alLookup entries k = none :=
      fun k hk => hfresh k (List.mem_cons_of_mem _ hk)
    have hk0nr : k0 ∉ rest := (List.nodup_cons.1 hnd).1
    have hndr : rest.Nodup := (List.nodup_cons.1 hnd).2
    have hf2gen : ∀ (e : TablebaseEntry), ∀ k ∈ rest,
        alLookup (alInsert entries k0 e) k = none := by
      intro e k hk
      have hne : k ≠ k0 := by
        intro hh
        rw [hh] at hk
        exact hk0nr hk
      rw [alLookup_insert_ne _ _ hne]
      exact hrestf k hk
    cases hpm : alLookup pm k0 with
    | none =>
      have hstep : tb_pass pm (k0 :: rest) entries changed =
          ((tb_pass pm rest entries changed).1,
           k0 :: (tb_pass pm rest entries changed).2.1,
           (tb_pass pm rest entries changed).2.2) := by
        rw [tb_pass, hpm]
      rw [hstep]
      exact tbinv_skip (ih entries changed hrestf hndr hw) hk0 hk0nr
    | some pos =>
      have hstep : tb_pass pm (k0 :: rest) entries changed =
          (if (tb_scan_moves entries pos.1 pos.2
                (generate_all_legal_moves pos.1 pos.2)
                ⟨false, true, none, 0⟩).has_winning_move = true then
            match (tb_scan_moves entries pos.1 pos.2
                (generate_all_legal_moves pos.1 pos.2)
                ⟨false, true, none, 0⟩).best_move_info with
            | some bi =>
              tb_pass pm rest (alInsert entries k0
                ⟨WDLOutcome.Win, bi.2, some bi.1⟩) true
            | none =>
              ((tb_pass pm rest entries changed).1,
               k0 :: (tb_pass pm rest entries changed).2.1,
               (tb_pass pm rest entries changed).2.2)
          else if (tb_scan_moves entries pos.1 pos.2
                (generate_all_legal_moves pos.1 pos.2)
                ⟨false, true, none, 0⟩).all_moves_lose = true ∧
              ¬ (generate_all_legal_moves pos.1 pos.2).isEmpty = true then
            tb_pass pm rest (alInsert entries k0
              ⟨WDLOutcome.Loss,
               (tb_scan_moves entries pos.1 pos.2
                 (generate_all_legal_moves pos.1 pos.2)
                 ⟨false, true, none, 0⟩).max_dtm + 1, none⟩) true
          else
            ((tb_pass pm rest entries changed).1,
             k0 :: (tb_pass pm rest entries changed).2.1,
             (tb_pass pm rest entries changed).2.2)) := by
        rw [tb_pass, hpm]
      rw [hstep]
      cases hwm : (tb_scan_moves entries pos.1 pos.2
          (generate_all_legal_moves pos.1 pos.2)
          ⟨false, true, none, 0⟩).has_winning_move with
      | true =>
        rw [if_pos rfl]
        cases hbm : (tb_scan_moves entries pos.1 pos.2
            (generate_all_legal_moves pos.1 pos.2)
            ⟨false, true, none, 0⟩).best_move_info with
        | none =>
          exact tbinv_skip (ih entries changed hrestf hndr hw) hk0 hk0nr
        | some bi =>
          have hbw : BestWitness entries pos.1 pos.2
              (generate_all_legal_moves pos.1 pos.2) bi :=
            tb_scan_moves_best entries pos.1 pos.2
              (generate_all_legal_moves pos.1 pos.2) ⟨false, true, none, 0⟩
              (generate_all_legal_moves pos.1 pos.2) (fun m hm => hm)
              (fun bi2 hbi2 => Option.noConfusion hbi2) bi hbm
          have hw2 : WinEntryLinked
              (alInsert entries k0 ⟨WDLOutcome.Win, bi.2, some bi.1⟩) pm := by
            refine winlinked_insert_fresh hk0 hw (fun _ => ?_)
            obtain ⟨mv, hmv, hms, e2, he2, hwl, hdtm⟩ := hbw
            exact ⟨pos, hpm, bi.1, rfl, mv, hmv, hms, e2, he2, hwl, hdtm⟩
          exact tbinv_insert (ih _ true (hf2gen _) hndr hw2)
      | false =>
        rw [if_neg Bool.false_ne_true]
        by_cases hc : (tb_scan_moves entries pos.1 pos.2
            (generate_all_legal_moves pos.1 pos.2)
            ⟨false, true, none, 0⟩).all_moves_lose = true ∧
            ¬ (generate_all_legal_moves pos.1 pos.2).isEmpty = true
        · rw [if_pos hc]
          have hw2 : WinEntryLinked
              (alInsert entries k0
                ⟨WDLOutcome.Loss,
                 (tb_scan_moves entries pos.1 pos.2
                   (generate_all_legal_moves pos.1 pos.2)
                   ⟨false, true, none, 0⟩).max_dtm + 1, none⟩) pm :=
            winlinked_insert_fresh hk0 hw (fun hww => by simp at hww)
          exact tbinv_insert (ih _ true (hf2gen _) hndr hw2)
        · rw [if_neg hc]
          exact tbinv_skip (ih entries changed hrestf hndr hw) hk0 hk0nr

/-- Invariants of the phase-2 fixed-point loop, by induction on the
fuel, composing the per-pass invariants. -/
theorem tb_loop_inv (pm : TBPosMap) :
    ∀ (fuel : Nat) (entries : TBEntries) (unknown : List TBKey),
    (∀ k ∈ unknown, alLookup entries k = none) → unknown.Nodup →
    WinEntryLinked entries pm →
    TBInv pm entries unknown (tb_loop pm fuel entries unknown) := by
  intro fuel
  induction fuel with
  | zero =>
    intro entries unknown hf hnd hw
    exact ⟨hf, hnd, hw, fun k => Iff.rfl⟩
  | succ fuel ih =>
    intro entries unknown hf hnd hw
    obtain ⟨h1, h2, h3, h4⟩ := tb_pass_inv pm unknown entries false hf hnd hw
    have hstep : tb_loop pm (fuel + 1) entries unknown =
        (if (tb_pass pm unknown entries false).2.2 = true then
          tb_loop pm fuel (tb_pass pm unknown entries false).1
            (tb_pass pm unknown entries false).2.1
        else ((tb_pass pm unknown entries false).1,
          (tb_pass pm unknown entries false).2.1)) := by
      rw [tb_loop]
    rw [hstep]
    by_cases hch : (tb_pass pm unknown entries false).2.2 = true
    · rw [if_pos hch]
      obtain ⟨g1, g2, g3, g4⟩ := ih (tb_pass pm unknown entries false).1
        (tb_pass pm unknown entries false).2.1 h1 h2 h3
      exact ⟨g1, g2, g3, fun k => (g4 k).trans (h4 k)⟩
    · rw [if_neg hch]
      exact ⟨h1, h2, h3, h4⟩

/-- Invariants of phase 3: marking every leftover unknown as a draw
keeps winning entries linked and extends the domain by exactly those
keys. -/
theorem tb_phase3_inv (pm : TBPosMap) :
    ∀ (klist : List TBKey) (entries : TBEntries),
    (∀ k ∈ klist, alLookup entries k = none) → klist.Nodup →
    WinEntryLinked entries pm →
    WinEntryLinked (tb_phase3 entries klist) pm ∧
    (∀ k, ¬ alLookup (tb_phase3 entries klist) k = none ↔
      (¬ alLookup entries k = none ∨ k ∈ klist)) := by
  intro klist
  induction klist with
  | nil =>
    intro entries _ _ hw
    refine ⟨hw, fun k => ?_⟩
    rw [tb_phase3]
    simp
  | cons k0 rest ih =>
    intro entries hf hnd hw
    have hk0 : alLookup entries k0 = none := hf k0 (List.mem_cons_self _ _)
    have hstep : tb_phase3 entries (k0 :: rest) =
        tb_phase3 (alInsert entries k0 ⟨WDLOutcome.Draw, -1, none⟩) rest := by
      rw [tb_phase3]
    have hf2 : ∀ k ∈ rest,
        alLookup (alInsert entries k0 ⟨WDLOutcome.Draw, -1, none⟩) k = none := by
      intro k hk
      have hne : k ≠ k0 := by
        intro hh
        rw [hh] at hk
        exact (List.nodup_cons.1 hnd).1 hk
      rw [alLookup_insert_ne _ _ hne]
      exact hf k (List.mem_cons_of_mem _ hk)
    have hw2 : WinEntryLinked
        (alInsert entries k0 ⟨WDLOutcome.Draw, -1, none⟩) pm :=
      winlinked_insert_fresh hk0 hw (fun hww => by simp at hww)
    obtain ⟨g1, g2⟩ := ih _ hf2 (List.nodup_cons.1 hnd).2 hw2
    refine ⟨?_, fun k => ?_⟩
    · rw [hstep]
      exact g1
    · rw [hstep, g2 k]
      exact alInsert_domain_cons entries k0 k ⟨WDLOutcome.Draw, -1, none⟩ rest

-- ============================================================================
-- Lemmas: assembled tablebase properties
-- ============================================================================

/-- The domain of a generated tablebase is exactly the key set of the
enumerated positions (for configurations without a King among the
stronger side's extra pieces). -/
theorem tablebase_domain (config : TablebaseConfig)
    (hcfg : PieceType.King ∉ config.stronger_side) (k : TBKey) :
    (¬ alLookup (generate_tablebase config).entries k = none) ↔
      ∃ pos ∈ generate_all_positions config, get_tablebase_key pos.1 pos.2 = k := by
  obtain ⟨h1, h2, h3, h4, h5⟩ :=
    tb_phase1_inv (generate_all_positions config) (gen_positions_key_inj hcfg)
  have hC : WinEntryLinked (tb_phase1 (generate_all_positions config)).entries
      (tb_phase1 (generate_all_positions config)).pos_map := by
    intro k1 e hk1 hw1
    exact absurd hw1 (h3 k1 e hk1).1
  obtain ⟨g1, g2, g3, g4⟩ := tb_loop_inv
    (tb_phase1 (generate_all_positions config)).pos_map 500
    (tb_phase1 (generate_all_positions config)).entries
    (tb_phase1 (generate_all_positions config)).unknown h1 h2 hC
  obtain ⟨p1, p2⟩ := tb_phase3_inv
    (tb_phase1 (generate_all_positions config)).pos_map
    (tb_loop (tb_phase1 (generate_all_positions config)).pos_map 500
      (tb_phase1 (generate_all_positions config)).entries
      (tb_phase1 (generate_all_positions config)).unknown).2
    (tb_loop (tb_phase1 (generate_all_positions config)).pos_map 500
      (tb_phase1 (generate_all_positions config)).entries
      (tb_phase1 (generate_all_positions config)).unknown).1 g1 g2 g3
  exact (p2 k).trans ((g4 k).trans (h5 k))

/-- C3: in a tablebase produced by `generate_tablebase` for any
configuration whose stronger side has no King (as holds for every
configuration the program processes), every entry with `wdl = Win`
carries a `best_move` that is legal in the entry's position, and
applying it with the side to move flipped reaches a position whose
entry is a Loss with `dtm` equal to the winning entry's `dtm` minus
one. -/
theorem c3_win_entries_linked (config : TablebaseConfig)
    (hcfg : PieceType.King ∉ config.stronger_side) :
    WinEntryLinked (generate_tablebase config).entries (tb_position_map config) := by
  obtain ⟨h1, h2, h3, h4, h5⟩ :=
    tb_phase1_inv (generate_all_positions config) (gen_positions_key_inj hcfg)
  have hC : WinEntryLinked (tb_phase1 (generate_all_positions config)).entries
      (tb_phase1 (generate_all_positions config)).pos_map := by
    intro k1 e hk1 hw1
    exact absurd hw1 (h3 k1 e hk1).1
  obtain ⟨g1, g2, g3, g4⟩ := tb_loop_inv
    (tb_phase1 (generate_all_positions config)).pos_map 500
    (tb_phase1 (generate_all_positions config)).entries
    (tb_phase1 (generate_all_positions config)).unknown h1 h2 hC
  obtain ⟨p1, p2⟩ := tb_phase3_inv
    (tb_phase1 (generate_all_positions config)).pos_map
    (tb_loop (tb_phase1 (generate_all_positions config)).pos_map 500
      (tb_phase1 (generate_all_positions config)).entries
      (tb_phase1 (generate_all_positions config)).unknown).2
    (tb_loop (tb_phase1 (generate_all_positions config)).pos_map 500
      (tb_phase1 (generate_all_positions config)).entries
      (tb_phase1 (generate_all_positions config)).unknown).1 g1 g2 g3
  exact p1

/-- Witness for C3: the hypothesis holds at the KQvK configuration the
program seeds at startup. -/
theorem c3_win_entries_linked_witness :
    PieceType.King ∉ kqvk_config.stronger_side ∧
    WinEntryLinked (generate_tablebase kqvk_config).entries
      (tb_position_map kqvk_config) :=
  ⟨by decide, c3_win_entries_linked kqvk_config (by decide)⟩

/-- The probe finds an entry iff the detected configuration's loaded
tablebase holds the position's key. -/
theorem probe_found_iff {registry : List (String × PieceTablebase)} {board : Board}
    {stm : Color} {config : TablebaseConfig} {tb : PieceTablebase}
    (hdet : detect_configuration board = some config)
    (hget : get_tablebase registry config.name = some tb) :
    (probe_tablebase registry board stm).found =
      (alLookup tb.entries (get_tablebase_key board stm)).isSome := by
  unfold probe_tablebase
  split
  · rename_i hd
    rw [hdet] at hd
    cases hd
  · rename_i config2 hd
    rw [hdet] at hd
    have hc2 := Option.some.inj hd
    subst hc2
    split
    · rename_i hg
      rw [hget] at hg
      cases hg
    · rename_i tb2 hg
      rw [hget] at hg
      have ht2 := Option.some.inj hg
      subst ht2
      cases hl : alLookup tb.entries (get_tablebase_key board stm) with
      | none => rfl
      | some e => rfl

/-- The S8 position (white king (0,0), white queen (2,0), black king
(0,-4), White to move) is among the positions enumerated for KQvK. -/
theorem c5_position_enumerated :
    (c5_position, Color.White) ∈ generate_all_positions kqvk_config := by
  simp only [generate_all_positions, List.mem_flatMap]
  refine ⟨⟨0, 0⟩, mem_get_all_cells.2 (by decide),
    ⟨0, -4⟩, mem_get_all_cells.2 (by decide), ?_⟩
  rw [if_neg (by decide), if_neg (by decide)]
  simp only [kqvk_config]
  simp only [List.mem_flatMap]
  refine ⟨⟨2, 0⟩, List.mem_filter.2 ⟨mem_get_all_cells.2 (by decide), by decide⟩,
    Color.White, by decide, ?_⟩
  decide

/-- The reflection of the S8 position (colors swapped, coordinates
negated) is not enumerated for KQvK: its queen is Black, while the
enumeration places the stronger side's piece only as White. -/
theorem c5_reflected_not_enumerated :
    alLookup (generate_tablebase kqvk_config).entries
      (get_tablebase_key c5_reflected Color.Black) = none := by
  by_contra hc
  obtain ⟨pos, hpos, hkey⟩ := (tablebase_domain kqvk_config (by decide)
    (get_tablebase_key c5_reflected Color.Black)).1 hc
  simp only [get_tablebase_key, Prod.mk.injEq] at hkey
  have ht := canon_eq_lookup hkey.1
    (show is_valid_cell (⟨-2, 0⟩ : HexCoord) = true by decide)
  have hlq : get_piece_at pos.1 ⟨-2, 0⟩ =
      some (Piece.new PieceType.Queen Color.Black) := by
    rw [ht]
    decide
  have hmemq : ((⟨-2, 0⟩ : HexCoord), Piece.new PieceType.Queen Color.Black) ∈ pos.1 :=
    mem_of_alLookup_eq_some hlq
  rcases gen_positions_pieces_white hpos _ hmemq with hcol | hking
  · exact absurd hcol (by decide)
  · exact absurd hking (by decide)

/-- C5 (refuted): probing the loaded KQvK tablebase finds the S8
position (white queen) but not its reflection (black queen, colors
swapped, coordinates negated, side to move swapped), because
`generate_all_positions` enumerates the stronger side's piece only as
White while `detect_configuration` maps both positions to the same
tablebase name.  The spec's probe-symmetry property fails. -/
theorem c5_probe_reflection_fails :
    (probe_tablebase kqvk_registry c5_position Color.White).found = true ∧
    (probe_tablebase kqvk_registry c5_reflected Color.Black).found = false := by
  have hget : get_tablebase kqvk_registry kqvk_config.name =
      some (generate_tablebase kqvk_config) := rfl
  constructor
  · have hdet : detect_configuration c5_position = some kqvk_config := by decide
    rw [probe_found_iff hdet hget]
    have hdom := (tablebase_domain kqvk_config (by decide)
      (get_tablebase_key c5_position Color.White)).2
      ⟨(c5_position, Color.White), c5_position_enumerated, rfl⟩
    cases hl : alLookup (generate_tablebase kqvk_config).entries
        (get_tablebase_key c5_position Color.White) with
    | none => exact absurd hl hdom
    | some e => rfl
  · have hdet2 : detect_configuration c5_reflected = some kqvk_config := by decide
    rw [probe_found_iff hdet2 hget, c5_reflected_not_enumerated]
    rfl
